import Mathlib

/-!
Verification of core routines of the AI_NovelGenerator_lz repository.

The Python modules under `novel_generator/` are shallowly embedded here:

* pure string manipulation (`strip`, slicing, `join`) is modelled over
  `String`/`List Char`;
* the two regular-expression scans of `blueprint.py`
  (`第\s*(\d+)\s*章` for resume detection and
  `(第\s*\d+\s*章.*?)(?=第\s*\d+\s*章|$)` for entry windowing) are modelled as
  deterministic scanners over `List Char` (the patterns are deterministic:
  no backtracking can change a match, see `matchMarker` below);
* external collaborators (the LLM generation call, the NLTK sentence
  tokenizer, the embedding backend and the Chroma index) are parameters of
  the embedded functions: an oracle `Nat → String` gives the cleaned reply
  of the i-th generation call, a `String → List String` argument plays the
  sentence tokenizer, and the vector-store outcome is an explicit value;
* file contents are explicit `Option String` state (the `utils.py`
  read / clear / save helpers are the durable text store of the spec and
  are modelled as direct state access);
* whitespace and digits are modelled as their ASCII classes (the embedded
  texts only use those).
-/

/-- Whitespace class used to model Python's `str.strip()` and the regex
class `\s` (ASCII part). -/
def isSpaceC (c : Char) : Bool :=
  c = ' ' || c = '\t' || c = '\n' || c = '\r' || c = '\u000B' || c = '\u000C'

/-- Strip leading and trailing whitespace from a character list:
model of Python `str.strip()` on the underlying characters. -/
def stripList (l : List Char) : List Char :=
  ((l.dropWhile isSpaceC).reverse.dropWhile isSpaceC).reverse

/-- Model of Python `str.strip()`. -/
def pyStrip (s : String) : String :=
  ⟨stripList s.data⟩

/-- Value of a list of ASCII digits, as Python `int(...)` computes it. -/
def digitsToNat (ds : List Char) : Nat :=
  ds.foldl (fun a c => a * 10 + (c.toNat - '0'.toNat)) 0

/- ------------------------------------------------------------------ -/
/- blueprint.py : compute_chunk_size                                   -/
/- ------------------------------------------------------------------ -/

/-- Embedding of `blueprint.compute_chunk_size`.  The Python body is
`ratio = max_tokens / 200.0; chunk = int(ratio // 10) * 10 - 10` followed
by clamping to `[1, number_of_chapters]`; `int(ratio // 10)` is exactly
`max_tokens / 2000` in integer arithmetic. -/
def compute_chunk_size (number_of_chapters : Nat) (max_tokens : Nat) : Nat :=
  let ratio_rounded_to_10 : Int := ((max_tokens / 2000 : Nat) : Int) * 10
  let chunk_size : Int := ratio_rounded_to_10 - 10
  let chunk_size : Int := if chunk_size < 1 then 1 else chunk_size
  let chunk_size : Int :=
    if chunk_size > (number_of_chapters : Int) then (number_of_chapters : Int) else chunk_size
  chunk_size.toNat

/-- C2: for all `number_of_chapters ≥ 1` and `max_tokens ≥ 100`,
`compute_chunk_size` equals `floor(max_tokens/200/10)*10 − 10` clamped to
`[1, number_of_chapters]`, hence satisfies the bounds
`1 ≤ chunk_size ≤ number_of_chapters`; and for `250` chapters with a
`4096` token budget the result is `10`. -/
theorem compute_chunk_size_spec :
    (∀ n t : Nat, 1 ≤ n → 100 ≤ t →
      compute_chunk_size n t
          = (max 1 (min (n : Int) (((t / 2000 : Nat) : Int) * 10 - 10))).toNat
        ∧ 1 ≤ compute_chunk_size n t ∧ compute_chunk_size n t ≤ n)
    ∧ compute_chunk_size 250 4096 = 10 := by
  constructor
  · intro n t hn _ht
    simp only [compute_chunk_size]
    refine ⟨?_, ?_, ?_⟩ <;> (split <;> split <;> omega)
  · rfl

/-- Witness for `compute_chunk_size_spec` at the spec's scenario. -/
theorem compute_chunk_size_spec_witness :
    1 ≤ compute_chunk_size 250 4096 ∧ compute_chunk_size 250 4096 ≤ 250 :=
  (compute_chunk_size_spec.1 250 4096 (by decide) (by decide)).2

/- ------------------------------------------------------------------ -/
/- blueprint.py : the chapter-marker pattern                           -/
/- ------------------------------------------------------------------ -/

/-- Deterministic matcher for the regex `第\s*(\d+)\s*章` anchored at the
head of `l`.  Returns `(value, consumed, rest)` on success, where
`consumed` is the matched text and `rest` the remaining input.  The
pattern is deterministic: `\d+` and the two `\s*` are followed by
characters of disjoint classes, so the greedy run never backtracks. -/
def matchMarker (l : List Char) : Option (Nat × List Char × List Char) :=
  match l with
  | [] => none
  | c :: rest =>
    if c = '第' then
      let ws1 := rest.takeWhile isSpaceC
      let r1 := rest.dropWhile isSpaceC
      let ds := r1.takeWhile Char.isDigit
      let r2 := r1.dropWhile Char.isDigit
      if ds.isEmpty then none
      else
        let ws2 := r2.takeWhile isSpaceC
        let r3 := r2.dropWhile isSpaceC
        match r3 with
        | '章' :: r4 => some (digitsToNat ds, '第' :: (ws1 ++ ds ++ ws2 ++ ['章']), r4)
        | _ => none
    else none

theorem matchMarker_eq_append {l : List Char} {v : Nat} {cs r : List Char}
    (h : matchMarker l = some (v, cs, r)) : l = cs ++ r := by
  match l with
  | [] => simp [matchMarker] at h
  | c :: rest =>
    simp only [matchMarker] at h
    split at h
    · next hc =>
      split at h
      · exact absurd h (by simp)
      · next hds =>
        split at h
        · next r4 hr3 =>
          rw [Option.some.injEq, Prod.mk.injEq, Prod.mk.injEq] at h
          obtain ⟨hv, hcs, hr⟩ := h
          subst hc hcs hr
          have h1 : rest.takeWhile isSpaceC ++ rest.dropWhile isSpaceC = rest :=
            List.takeWhile_append_dropWhile ..
          have h2 : (rest.dropWhile isSpaceC).takeWhile Char.isDigit ++
              (rest.dropWhile isSpaceC).dropWhile Char.isDigit = rest.dropWhile isSpaceC :=
            List.takeWhile_append_dropWhile ..
          have h3 : ((rest.dropWhile isSpaceC).dropWhile Char.isDigit).takeWhile isSpaceC ++
              ((rest.dropWhile isSpaceC).dropWhile Char.isDigit).dropWhile isSpaceC =
              (rest.dropWhile isSpaceC).dropWhile Char.isDigit :=
            List.takeWhile_append_dropWhile ..
          simp only [List.cons_append, List.cons.injEq, true_and, List.append_assoc,
            List.singleton_append, List.nil_append]
          rw [← hr3, h3, h2, h1]
        · exact absurd h (by simp)
    · exact absurd h (by simp)

theorem matchMarker_rest_lt {l : List Char} {v : Nat} {cs r : List Char}
    (h : matchMarker l = some (v, cs, r)) : r.length < l.length := by
  have happ := matchMarker_eq_append h
  have hcs : cs ≠ [] := by
    match l with
    | [] => simp [matchMarker] at h
    | c :: rest =>
      simp only [matchMarker] at h
      split at h
      · split at h
        · exact absurd h (by simp)
        · split at h
          · rw [Option.some.injEq, Prod.mk.injEq, Prod.mk.injEq] at h
            obtain ⟨hv, hcs, hr⟩ := h
            subst hcs; simp
          · exact absurd h (by simp)
      · exact absurd h (by simp)
  subst happ
  have : 0 < cs.length := List.length_pos.mpr hcs
  simp only [List.length_append]; omega

/-- All characters of `l` are in the whitespace class. -/
def allSpace (l : List Char) : Prop := ∀ c ∈ l, isSpaceC c = true

/-- All characters of `l` are ASCII digits. -/
def allDigit (l : List Char) : Prop := ∀ c ∈ l, c.isDigit = true

theorem isDigit_false_of_isSpaceC {c : Char} (h : isSpaceC c = true) :
    c.isDigit = false := by
  simp only [isSpaceC, Bool.or_eq_true, decide_eq_true_eq] at h
  rcases h with ((((h | h) | h) | h) | h) | h <;> subst h <;> decide

theorem isSpaceC_false_of_isDigit {c : Char} (h : c.isDigit = true) :
    isSpaceC c = false := by
  cases hs : isSpaceC c with
  | false => rfl
  | true => exact absurd h (by simp [isDigit_false_of_isSpaceC hs])

theorem ne_di_of_isSpaceC {c : Char} (h : isSpaceC c = true) : c ≠ '第' := by
  intro hc; subst hc; exact absurd h (by decide)

theorem ne_di_of_isDigit {c : Char} (h : c.isDigit = true) : c ≠ '第' := by
  intro hc; subst hc; exact absurd h (by decide)

theorem dropWhile_all_append {p : Char → Bool} {g : List Char} (y : List Char)
    (hg : ∀ c ∈ g, p c = true) : (g ++ y).dropWhile p = y.dropWhile p := by
  induction g with
  | nil => rfl
  | cons c t ih =>
    simp only [List.cons_append, List.dropWhile_cons, hg c (by simp)]
    exact ih fun c hc => hg c (by simp [hc])

theorem takeWhile_all_append {p : Char → Bool} {g : List Char} (y : List Char)
    (hg : ∀ c ∈ g, p c = true) : (g ++ y).takeWhile p = g ++ y.takeWhile p := by
  induction g with
  | nil => rfl
  | cons c t ih =>
    simp only [List.cons_append, List.takeWhile_cons, hg c (by simp)]
    exact congrArg _ (ih fun c hc => hg c (by simp [hc]))

theorem dropWhile_cons_neg {p : Char → Bool} {c : Char} (y : List Char)
    (hc : p c = false) : (c :: y).dropWhile p = c :: y := by
  simp [List.dropWhile_cons, hc]

theorem takeWhile_cons_neg {p : Char → Bool} {c : Char} (y : List Char)
    (hc : p c = false) : (c :: y).takeWhile p = [] := by
  simp [List.takeWhile_cons, hc]

/-- Inversion of a successful marker match: the consumed text has the shape
`第`, spaces, digits, spaces, `章`. -/
theorem matchMarker_inv {l : List Char} {v : Nat} {cs r : List Char}
    (h : matchMarker l = some (v, cs, r)) :
    ∃ ws1 ds ws2, cs = '第' :: (ws1 ++ ds ++ ws2 ++ ['章'])
      ∧ allSpace ws1 ∧ allDigit ds ∧ ds ≠ [] ∧ allSpace ws2
      ∧ v = digitsToNat ds := by
  match l with
  | [] => simp [matchMarker] at h
  | c :: rest =>
    simp only [matchMarker] at h
    split at h
    · next hc =>
      split at h
      · exact absurd h (by simp)
      · next hds =>
        split at h
        · next r4 hr3 =>
          rw [Option.some.injEq, Prod.mk.injEq, Prod.mk.injEq] at h
          obtain ⟨hv, hcs, hr⟩ := h
          refine ⟨rest.takeWhile isSpaceC,
            (rest.dropWhile isSpaceC).takeWhile Char.isDigit,
            ((rest.dropWhile isSpaceC).dropWhile Char.isDigit).takeWhile isSpaceC,
            hcs.symm, ?_, ?_, ?_, ?_, hv.symm⟩
          · exact fun c hc => List.mem_takeWhile_imp hc
          · exact fun c hc => List.mem_takeWhile_imp hc
          · intro hemp; rw [hemp] at hds; exact hds rfl
          · exact fun c hc => List.mem_takeWhile_imp hc
        · exact absurd h (by simp)
    · exact absurd h (by simp)

theorem matchMarker_cons_ne {c : Char} (rest : List Char) (hc : c ≠ '第') :
    matchMarker (c :: rest) = none := by
  simp [matchMarker, hc]

theorem matchMarker_cons_di (rest : List Char) :
    matchMarker ('第' :: rest) =
      (if ((rest.dropWhile isSpaceC).takeWhile Char.isDigit).isEmpty then none
       else
         match ((rest.dropWhile isSpaceC).dropWhile Char.isDigit).dropWhile isSpaceC with
         | '章' :: r4 =>
           some (digitsToNat ((rest.dropWhile isSpaceC).takeWhile Char.isDigit),
             '第' :: (rest.takeWhile isSpaceC
               ++ (rest.dropWhile isSpaceC).takeWhile Char.isDigit
               ++ ((rest.dropWhile isSpaceC).dropWhile Char.isDigit).takeWhile isSpaceC
               ++ ['章']), r4)
         | _ => none) := by
  simp [matchMarker]

/-- Constructive direction: a text of the marker shape matches, whatever
follows it. -/
theorem matchMarker_build {ws1 ds ws2 : List Char} (r : List Char)
    (h1 : allSpace ws1) (h2 : allDigit ds) (h3 : ds ≠ []) (h4 : allSpace ws2) :
    matchMarker ('第' :: (ws1 ++ (ds ++ (ws2 ++ ('章' :: r)))))
      = some (digitsToNat ds, '第' :: (ws1 ++ ds ++ ws2 ++ ['章']), r) := by
  obtain ⟨d, ds', rfl⟩ : ∃ d ds', ds = d :: ds' := by
    cases ds with
    | nil => exact absurd rfl h3
    | cons d ds' => exact ⟨d, ds', rfl⟩
  have hd : d.isDigit = true := h2 d (by simp)
  have hdsp : isSpaceC d = false := isSpaceC_false_of_isDigit hd
  have hzhsp : isSpaceC '章' = false := by decide
  have hzhdig : ('章' : Char).isDigit = false := by decide
  have hds' : allDigit ds' := fun c hc => h2 c (by simp [hc])
  have htwdig : (ws2 ++ ('章' :: r)).takeWhile Char.isDigit = [] := by
    cases ws2 with
    | nil => exact takeWhile_cons_neg _ hzhdig
    | cons w ws2' =>
      exact takeWhile_cons_neg _ (isDigit_false_of_isSpaceC (h4 w (by simp)))
  have hdwdig : (ws2 ++ ('章' :: r)).dropWhile Char.isDigit = ws2 ++ ('章' :: r) := by
    cases ws2 with
    | nil => exact dropWhile_cons_neg _ hzhdig
    | cons w ws2' =>
      exact dropWhile_cons_neg _ (isDigit_false_of_isSpaceC (h4 w (by simp)))
  rw [matchMarker_cons_di]
  have e1 : (ws1 ++ (d :: ds' ++ (ws2 ++ ('章' :: r)))).dropWhile isSpaceC
      = d :: (ds' ++ (ws2 ++ ('章' :: r))) := by
    rw [dropWhile_all_append _ h1, List.cons_append, dropWhile_cons_neg _ hdsp]
  have e2 : (ws1 ++ (d :: ds' ++ (ws2 ++ ('章' :: r)))).takeWhile isSpaceC = ws1 := by
    rw [takeWhile_all_append _ h1, List.cons_append, takeWhile_cons_neg _ hdsp,
      List.append_nil]
  have e3 : (d :: (ds' ++ (ws2 ++ ('章' :: r)))).takeWhile Char.isDigit = d :: ds' := by
    rw [List.takeWhile_cons, hd, if_pos rfl, takeWhile_all_append _ hds', htwdig,
      List.append_nil]
  have e4 : (d :: (ds' ++ (ws2 ++ ('章' :: r)))).dropWhile Char.isDigit
      = ws2 ++ ('章' :: r) := by
    rw [List.dropWhile_cons]
    simp only [hd, if_true]
    rw [dropWhile_all_append _ hds', hdwdig]
  have e5 : (ws2 ++ ('章' :: r)).dropWhile isSpaceC = '章' :: r := by
    rw [dropWhile_all_append _ h4, dropWhile_cons_neg _ hzhsp]
  have e6 : (ws2 ++ ('章' :: r)).takeWhile isSpaceC = ws2 := by
    rw [takeWhile_all_append _ h4, takeWhile_cons_neg _ hzhsp, List.append_nil]
  rw [e1, e2, e3, e4, e5, e6]
  simp

/-- Structural worker for `extractChapterNumbers`; the fuel only bounds the
recursion depth (one unit per character is always enough) and keeps the
function kernel-reducible. -/
def extractAux : Nat → List Char → List Nat
  | _, [] => []
  | 0, _ :: _ => []
  | fuel + 1, c :: rest =>
    match matchMarker (c :: rest) with
    | none => extractAux fuel rest
    | some x => x.1 :: extractAux fuel x.2.2

/-- Model of `re.findall(r"第\s*(\d+)\s*章", text)` followed by `int(...)`
on each captured group, as the resume-detection code of
`Chapter_blueprint_generate` performs it: scan left to right, on a match
continue after its end, otherwise advance one character. -/
def extractChapterNumbers (l : List Char) : List Nat := extractAux l.length l

theorem extractAux_congr :
    ∀ f₁ : Nat, ∀ f₂ : Nat, ∀ l : List Char, l.length ≤ f₁ → l.length ≤ f₂ →
      extractAux f₁ l = extractAux f₂ l := by
  intro f₁
  induction f₁ with
  | zero =>
    intro f₂ l h₁ _h₂
    have : l = [] := List.length_eq_zero.mp (Nat.le_zero.mp h₁)
    subst this
    cases f₂ <;> rfl
  | succ f ih =>
    intro f₂ l h₁ h₂
    cases l with
    | nil => cases f₂ <;> rfl
    | cons c rest =>
      cases f₂ with
      | zero => simp at h₂
      | succ f₂' =>
        simp only [extractAux]
        cases h : matchMarker (c :: rest) with
        | none =>
          simp only [List.length_cons] at h₁ h₂
          simp only []
          exact ih f₂' rest (by omega) (by omega)
        | some x =>
          have hlt := matchMarker_rest_lt
            (show _ = some (x.1, x.2.1, x.2.2) from h)
          simp only [List.length_cons] at h₁ h₂ hlt
          simp only []
          rw [ih f₂' x.2.2 (by omega) (by omega)]

theorem extractChapterNumbers_cons (c : Char) (rest : List Char) :
    extractChapterNumbers (c :: rest) =
      match matchMarker (c :: rest) with
      | none => extractChapterNumbers rest
      | some x => x.1 :: extractChapterNumbers x.2.2 := by
  show extractAux (c :: rest).length (c :: rest) = _
  simp only [List.length_cons, extractAux]
  cases h : matchMarker (c :: rest) with
  | none => exact extractAux_congr _ _ rest (by simp) (le_refl _)
  | some x =>
    have hlt := matchMarker_rest_lt (show _ = some (x.1, x.2.1, x.2.2) from h)
    simp only [List.length_cons] at hlt
    simp only []
    rw [extractAux_congr rest.length x.2.2.length x.2.2 (by omega) (le_refl _)]
    rfl

/-- Split off the longest prefix on which no marker match starts; the scan
of the lazy `.*?` up to the lookahead `(?=第\s*\d+\s*章|$)`. -/
def takeUntilMarker : List Char → List Char × List Char
  | [] => ([], [])
  | c :: rest =>
    if (matchMarker (c :: rest)).isSome then ([], c :: rest)
    else
      let p := takeUntilMarker rest
      (c :: p.1, p.2)

theorem takeUntilMarker_append (l : List Char) :
    (takeUntilMarker l).1 ++ (takeUntilMarker l).2 = l := by
  induction l with
  | nil => rfl
  | cons c rest ih =>
    simp only [takeUntilMarker]
    split
    · rfl
    · simpa using ih

theorem takeUntilMarker_length (l : List Char) :
    (takeUntilMarker l).2.length ≤ l.length := by
  conv_rhs => rw [← takeUntilMarker_append l]
  simp

theorem takeUntilMarker_stop (l : List Char) :
    (takeUntilMarker l).2 = [] ∨ ((matchMarker (takeUntilMarker l).2).isSome = true) := by
  induction l with
  | nil => exact Or.inl rfl
  | cons c rest ih =>
    simp only [takeUntilMarker]
    split
    · next h => exact Or.inr h
    · exact ih

theorem takeUntilMarker_fail (l : List Char) :
    ∀ j < (takeUntilMarker l).1.length,
      matchMarker ((takeUntilMarker l).1.drop j ++ (takeUntilMarker l).2) = none := by
  induction l with
  | nil => intro j hj; simp [takeUntilMarker] at hj
  | cons c rest ih =>
    simp only [takeUntilMarker]
    split
    · intro j hj; simp at hj
    · next h =>
      intro j hj
      match j with
      | 0 =>
        simp only [List.drop_zero, List.cons_append, takeUntilMarker_append rest]
        exact Option.not_isSome_iff_eq_none.mp h
      | j + 1 =>
        simp only [List.length_cons] at hj
        exact ih j (by omega)

/-- Model of `re.findall(r"(第\s*\d+\s*章.*?)(?=第\s*\d+\s*章|$)", text,
flags=re.DOTALL)`: each returned entry is a marker followed by the text up
to the next marker start (or the end of input).

Difference from CPython kept in mind: without `re.MULTILINE`, `$` also
matches just before a trailing `'\n'`, so when the input ends in a single
newline the Python engine leaves that newline out of the last entry.  The
number of entries and everything the theorems below state (entry counts,
and the windowed text after the final `strip()`) are unaffected. -/
def findEntriesAux : Nat → List Char → List (List Char)
  | _, [] => []
  | 0, _ :: _ => []
  | fuel + 1, c :: rest =>
    match matchMarker (c :: rest) with
    | none => findEntriesAux fuel rest
    | some x =>
      (x.2.1 ++ (takeUntilMarker x.2.2).1) :: findEntriesAux fuel (takeUntilMarker x.2.2).2

def findEntries (l : List Char) : List (List Char) := findEntriesAux l.length l

theorem findEntriesAux_congr :
    ∀ f₁ : Nat, ∀ f₂ : Nat, ∀ l : List Char, l.length ≤ f₁ → l.length ≤ f₂ →
      findEntriesAux f₁ l = findEntriesAux f₂ l := by
  intro f₁
  induction f₁ with
  | zero =>
    intro f₂ l h₁ _h₂
    have : l = [] := List.length_eq_zero.mp (Nat.le_zero.mp h₁)
    subst this
    cases f₂ <;> rfl
  | succ f ih =>
    intro f₂ l h₁ h₂
    cases l with
    | nil => cases f₂ <;> rfl
    | cons c rest =>
      cases f₂ with
      | zero => simp at h₂
      | succ f₂' =>
        simp only [findEntriesAux]
        cases h : matchMarker (c :: rest) with
        | none =>
          simp only [List.length_cons] at h₁ h₂
          simp only []
          exact ih f₂' rest (by omega) (by omega)
        | some x =>
          have hlt := matchMarker_rest_lt
            (show _ = some (x.1, x.2.1, x.2.2) from h)
          have htl := takeUntilMarker_length x.2.2
          simp only [List.length_cons] at h₁ h₂ hlt
          simp only []
          rw [ih f₂' (takeUntilMarker x.2.2).2 (by omega) (by omega)]

theorem findEntries_cons (c : Char) (rest : List Char) :
    findEntries (c :: rest) =
      match matchMarker (c :: rest) with
      | none => findEntries rest
      | some x =>
        (x.2.1 ++ (takeUntilMarker x.2.2).1) :: findEntries (takeUntilMarker x.2.2).2 := by
  show findEntriesAux (c :: rest).length (c :: rest) = _
  simp only [List.length_cons, findEntriesAux]
  cases h : matchMarker (c :: rest) with
  | none => exact findEntriesAux_congr _ _ rest (by simp) (le_refl _)
  | some x =>
    have hlt := matchMarker_rest_lt (show _ = some (x.1, x.2.1, x.2.2) from h)
    have htl := takeUntilMarker_length x.2.2
    simp only [List.length_cons] at hlt
    simp only []
    rw [findEntriesAux_congr rest.length (takeUntilMarker x.2.2).2.length
      (takeUntilMarker x.2.2).2 (by omega) (le_refl _)]
    rfl

/-- Number of positions of `l` at which a marker match starts. -/
def numMarkers : List Char → Nat
  | [] => 0
  | c :: rest => (if (matchMarker (c :: rest)).isSome then 1 else 0) + numMarkers rest

/- ------------------------------------------------------------------ -/
/- properties of stripList / pyStrip                                   -/
/- ------------------------------------------------------------------ -/

theorem head_dropWhile_not {p : Char → Bool} (l : List Char) :
    ∀ c, (l.dropWhile p).head? = some c → p c = false := by
  induction l with
  | nil => intro c hc; simp at hc
  | cons a t ih =>
    intro c hc
    rw [List.dropWhile_cons] at hc
    split at hc
    · exact ih c hc
    · next ha =>
      simp only [List.head?_cons, Option.some.injEq] at hc
      subst hc
      exact Bool.not_eq_true _ ▸ ha

theorem dropWhile_eq_self_of_head {p : Char → Bool} {l : List Char}
    (h : ∀ c, l.head? = some c → p c = false) : l.dropWhile p = l := by
  cases l with
  | nil => rfl
  | cons a t => rw [List.dropWhile_cons, h a rfl]; simp

theorem dropWhile_length_le (p : Char → Bool) (l : List Char) :
    (l.dropWhile p).length ≤ l.length := by
  conv_rhs => rw [← List.takeWhile_append_dropWhile p l]
  simp only [List.length_append]
  omega

theorem dropWhile_eq_self_head {p : Char → Bool} {l : List Char}
    (h : l.dropWhile p = l) : ∀ c, l.head? = some c → p c = false := by
  intro c hc
  cases l with
  | nil => simp at hc
  | cons a t =>
    simp only [List.head?_cons, Option.some.injEq] at hc
    subst hc
    rw [List.dropWhile_cons] at h
    by_contra hb
    rw [Bool.not_eq_false] at hb
    rw [if_pos hb] at h
    have h1 := congrArg List.length h
    have h2 := dropWhile_length_le p t
    simp only [List.length_cons] at h1
    omega

/-- `stripList` characterised: a list is fixed by `stripList` iff its first
and last characters are not whitespace. -/
theorem stripList_eq_self_of (l : List Char)
    (hh : ∀ c, l.head? = some c → isSpaceC c = false)
    (hl : ∀ c, l.getLast? = some c → isSpaceC c = false) :
    stripList l = l := by
  unfold stripList
  rw [dropWhile_eq_self_of_head hh]
  rw [dropWhile_eq_self_of_head (by rw [List.head?_reverse]; exact hl)]
  exact List.reverse_reverse l

theorem stripList_head (l : List Char) :
    ∀ c, (stripList l).head? = some c → isSpaceC c = false := by
  intro c hc
  unfold stripList at hc
  set f := l.dropWhile isSpaceC with hf
  set g := f.reverse.dropWhile isSpaceC with hg
  -- g.reverse is a prefix of f; if nonempty they share the head
  have hsplit : f.reverse.takeWhile isSpaceC ++ g = f.reverse :=
    List.takeWhile_append_dropWhile ..
  have hfrev : f = g.reverse ++ (f.reverse.takeWhile isSpaceC).reverse := by
    conv_lhs => rw [← List.reverse_reverse f, ← hsplit]
    rw [List.reverse_append]
  have hgne : g.reverse ≠ [] := by
    intro hnil
    rw [hnil] at hc; simp at hc
  have : f.head? = some c := by
    rw [hfrev]
    cases hgr : g.reverse with
    | nil => exact absurd hgr hgne
    | cons x xs =>
      rw [hgr] at hc
      simp only [List.head?_cons, Option.some.injEq] at hc
      simp [hc]
  exact head_dropWhile_not l c this

theorem stripList_getLast (l : List Char) :
    ∀ c, (stripList l).getLast? = some c → isSpaceC c = false := by
  intro c hc
  unfold stripList at hc
  rw [List.getLast?_reverse] at hc
  exact head_dropWhile_not _ c hc

theorem stripList_idem (l : List Char) : stripList (stripList l) = stripList l :=
  stripList_eq_self_of _ (stripList_head l) (stripList_getLast l)

theorem stripList_self_head {l : List Char} (h : stripList l = l) :
    ∀ c, l.head? = some c → isSpaceC c = false := by
  intro c hc
  exact stripList_head l c (by rw [h]; exact hc)

theorem stripList_self_getLast {l : List Char} (h : stripList l = l) :
    ∀ c, l.getLast? = some c → isSpaceC c = false := by
  intro c hc
  exact stripList_getLast l c (by rw [h]; exact hc)

theorem stripList_append_mid {x y : List Char} (m : List Char)
    (hx : stripList x = x) (hxne : x ≠ []) (hy : stripList y = y) (hyne : y ≠ []) :
    stripList (x ++ m ++ y) = x ++ m ++ y := by
  apply stripList_eq_self_of
  · intro c hc
    rw [List.append_assoc, List.head?_append_of_ne_nil _ hxne] at hc
    exact stripList_self_head hx c hc
  · intro c hc
    rw [List.getLast?_append_of_ne_nil _ hyne] at hc
    exact stripList_self_getLast hy c hc

theorem data_eq_nil_iff (s : String) : s.data = [] ↔ s = "" := by
  constructor
  · intro h; exact String.ext h
  · intro h; rw [h]

theorem pyStrip_eq_self_append {a b : String} (m : String)
    (ha : pyStrip a = a) (hane : a ≠ "") (hb : pyStrip b = b) (hbne : b ≠ "") :
    pyStrip (a ++ m ++ b) = a ++ m ++ b := by
  have ha' : stripList a.data = a.data := congrArg String.data ha
  have hb' : stripList b.data = b.data := congrArg String.data hb
  have hane' : a.data ≠ [] := fun h => hane ((data_eq_nil_iff a).mp h)
  have hbne' : b.data ≠ [] := fun h => hbne ((data_eq_nil_iff b).mp h)
  apply String.ext
  show stripList (a ++ m ++ b).data = (a ++ m ++ b).data
  rw [String.data_append, String.data_append]
  exact stripList_append_mid m.data ha' hane' hb' hbne'

theorem pyStrip_idem (s : String) : pyStrip (pyStrip s) = pyStrip s := by
  apply String.ext
  show stripList (pyStrip s).data = stripList s.data
  show stripList (stripList s.data) = stripList s.data
  exact stripList_idem s.data

/- ------------------------------------------------------------------ -/
/- blueprint.py : limit_chapter_blueprint and the generation loops     -/
/- ------------------------------------------------------------------ -/

/-- The join separator `"\n\n"`. -/
def nl2 : List Char := ['\n', '\n']

/-- Python `sep.join(pieces)` at the character-list level. -/
def intercalateL (g : List Char) : List (List Char) → List Char
  | [] => []
  | e :: es =>
    match es with
    | [] => e
    | _ :: _ => e ++ g ++ intercalateL g es

/-- Embedding of `blueprint.limit_chapter_blueprint`: keep only the last
`limit_chapters` chapter entries of the outline, joined by blank lines and
stripped; if no entry is found, or not more than `limit_chapters` of them,
return the text unchanged. -/
def limit_chapter_blueprint (blueprint_text : String) (limit_chapters : Nat) : String :=
  let chapters := findEntries blueprint_text.data
  if chapters.isEmpty then blueprint_text
  else if chapters.length ≤ limit_chapters then blueprint_text
  else ⟨stripList (intercalateL nl2 (chapters.drop (chapters.length - limit_chapters)))⟩

/-- Python `max(nums)` over the extracted chapter numbers, with the code's
`if existing_chapter_numbers else 0` default. -/
def maxList (l : List Nat) : Nat := l.foldl max 0

/-- Events recorded by the embedded `Chapter_blueprint_generate`: LLM
invocations (with the prompt ingredients that the claims are about, and the
cleaned reply) and file writes of `Novel_directory.txt`
(`clear_file_content` + `save_string_to_txt`). -/
inductive BEvent where
  | chunkCall (s e : Nat) (ctx reply : String)
  | singleCall (reply : String)
  | persist (content : String)
  deriving DecidableEq

/-- Final content of `Novel_directory.txt` after a run: the last `persist`
wins, otherwise the initial content stands. -/
def applyEvents (file : Option String) : List BEvent → Option String
  | [] => file
  | BEvent.persist c :: evs => applyEvents (some c) evs
  | _ :: evs => applyEvents file evs

/-- The resumed chunked-generation loop of `Chapter_blueprint_generate`
(lines 160-190): while `current_start ≤ number_of_chapters`, window the
accumulated outline to the last 100 entries, invoke the LLM; a blank reply
persists the accumulation and stops, otherwise the chunk is appended
(always with a `"\n\n"` separator in this branch), persisted, and the loop
advances.  `fuel` only bounds the recursion; every caller passes enough. -/
def resumeLoop (oracle : Nat → String) (n chunk : Nat) :
    Nat → Nat → String → Nat → List BEvent
  | 0, _, _, _ => []
  | fuel + 1, s, acc, i =>
    if s ≤ n then
      let e := min (s + chunk - 1) n
      let ctx := limit_chapter_blueprint acc 100
      let r := oracle i
      if pyStrip r = "" then
        [BEvent.chunkCall s e ctx r, BEvent.persist (pyStrip acc)]
      else
        let acc' := acc ++ "\n\n" ++ pyStrip r
        BEvent.chunkCall s e ctx r :: BEvent.persist (pyStrip acc')
          :: resumeLoop oracle n chunk fuel (e + 1) acc' (i + 1)
    else []

/-- The from-scratch chunked-generation loop of `Chapter_blueprint_generate`
(lines 220-253); identical to `resumeLoop` except that the first chunk is
not preceded by a separator (`if final_blueprint.strip(): ... else ...`). -/
def scratchLoop (oracle : Nat → String) (n chunk : Nat) :
    Nat → Nat → String → Nat → List BEvent
  | 0, _, _, _ => []
  | fuel + 1, s, acc, i =>
    if s ≤ n then
      let e := min (s + chunk - 1) n
      let ctx := limit_chapter_blueprint acc 100
      let r := oracle i
      if pyStrip r = "" then
        [BEvent.chunkCall s e ctx r, BEvent.persist (pyStrip acc)]
      else
        let acc' := if pyStrip acc = "" then pyStrip r else acc ++ "\n\n" ++ pyStrip r
        BEvent.chunkCall s e ctx r :: BEvent.persist (pyStrip acc')
          :: scratchLoop oracle n chunk fuel (e + 1) acc' (i + 1)
    else []

/-- Input state of `Chapter_blueprint_generate`: content of
`Novel_architecture.txt` and `Novel_directory.txt` (`none` = file absent)
and the run parameters. -/
structure BlueprintInput where
  archFile : Option String
  dirFile : Option String
  n : Nat
  maxTokens : Nat

/-- Embedding of `blueprint.Chapter_blueprint_generate`.  Returns the trace
of generation calls / outline writes and the final content of
`Novel_directory.txt`.  Mirrors the source: missing or blank architecture
is a no-op; an existing non-blank outline goes to the resume branch
(starting after the highest extracted chapter number); otherwise a single
shot if the chunk size covers everything, else the from-scratch loop. -/
def Chapter_blueprint_generate (oracle : Nat → String) (inp : BlueprintInput) :
    List BEvent × Option String :=
  match inp.archFile with
  | none => ([], inp.dirFile)
  | some a =>
    if pyStrip a = "" then ([], inp.dirFile)
    else
      let dir0 := inp.dirFile.getD ""
      let existing := pyStrip dir0
      let chunk := compute_chunk_size inp.n inp.maxTokens
      if existing ≠ "" then
        let maxChap := maxList (extractChapterNumbers existing.data)
        let evs := resumeLoop oracle inp.n chunk (inp.n + 1) (maxChap + 1) existing 0
        (evs, applyEvents (some dir0) evs)
      else if chunk ≥ inp.n then
        let r := oracle 0
        if pyStrip r = "" then ([BEvent.singleCall r], some dir0)
        else ([BEvent.singleCall r, BEvent.persist r], some r)
      else
        let evs := scratchLoop oracle inp.n chunk (inp.n + 1) 1 "" 0
        (evs, applyEvents (some dir0) evs)

theorem le_foldl_max (l : List Nat) (a : Nat) :
    (∀ k ∈ l, k ≤ l.foldl max a) ∧ a ≤ l.foldl max a := by
  induction l generalizing a with
  | nil => exact ⟨by simp, le_refl a⟩
  | cons x t ih =>
    constructor
    · intro k hk
      rcases List.mem_cons.mp hk with rfl | hk'
      · calc k ≤ max a k := le_max_right ..
          _ ≤ t.foldl max (max a k) := (ih (max a k)).2
      · exact (ih (max a x)).1 k hk'
    · calc a ≤ max a x := le_max_left ..
        _ ≤ t.foldl max (max a x) := (ih (max a x)).2

theorem le_maxList {k : Nat} {l : List Nat} (hk : k ∈ l) : k ≤ maxList l :=
  (le_foldl_max l 0).1 k hk

/-- C10: if the architecture document is non-blank and the existing outline
already holds a chapter marker numbered at least `number_of_chapters`, then
`Chapter_blueprint_generate` issues no generation call and leaves the
outline file unchanged (re-running after full completion is a no-op). -/
theorem blueprint_complete_noop (oracle : Nat → String) (inp : BlueprintInput) (a : String)
    (harch : inp.archFile = some a) (hne : pyStrip a ≠ "")
    (hdone : ∃ k ∈ extractChapterNumbers (pyStrip (inp.dirFile.getD "")).data, inp.n ≤ k) :
    Chapter_blueprint_generate oracle inp = ([], inp.dirFile) := by
  obtain ⟨k, hk, hkn⟩ := hdone
  have hex : pyStrip (inp.dirFile.getD "") ≠ "" := by
    intro h0
    rw [h0] at hk
    exact absurd hk (by simp [extractChapterNumbers, extractAux, show ("" : String).data = [] from rfl])
  have hmax : inp.n ≤ maxList (extractChapterNumbers (pyStrip (inp.dirFile.getD "")).data) :=
    le_trans hkn (le_maxList hk)
  obtain ⟨d, hd⟩ : ∃ d, inp.dirFile = some d := by
    cases hdf : inp.dirFile with
    | none =>
      rw [hdf] at hex
      exact absurd rfl hex
    | some d => exact ⟨d, rfl⟩
  obtain ⟨af, df, n, mt⟩ := inp
  simp only at harch hd hex hmax
  subst harch hd
  simp only [Option.getD_some] at hex hmax
  simp only [Chapter_blueprint_generate, Option.getD_some]
  rw [if_neg hne, if_pos hex]
  have hloop : resumeLoop oracle n (compute_chunk_size n mt) (n + 1)
      (maxList (extractChapterNumbers (pyStrip d).data) + 1) (pyStrip d) 0 = [] := by
    simp only [resumeLoop]
    rw [if_neg (by omega)]
  rw [hloop]
  rfl

/-- Witness for `blueprint_complete_noop`: three chapters requested, the
outline already shows `第3章`. -/
theorem blueprint_complete_noop_witness :
    Chapter_blueprint_generate (fun _ => "x")
        ⟨some "A", some "第3章 甲", 3, 4096⟩
      = ([], some "第3章 甲") :=
  blueprint_complete_noop _ _ "A" rfl (by decide)
    ⟨3, by decide, by decide⟩

/-- C3: with a non-blank architecture document and a non-blank existing
outline, `Chapter_blueprint_generate` extracts all chapter markers of the
outline and resumes at the highest one plus one: when work remains the
first issued generation call covers a range starting at `max_found + 1`
(`max_found` being `0` when the outline holds no marker, so generation then
starts at chapter 1), and when `max_found ≥ number_of_chapters` no call is
issued. -/
theorem blueprint_resume_start (oracle : Nat → String) (inp : BlueprintInput) (a : String)
    (harch : inp.archFile = some a) (hane : pyStrip a ≠ "")
    (hdir : pyStrip (inp.dirFile.getD "") ≠ "") :
    (maxList (extractChapterNumbers (pyStrip (inp.dirFile.getD "")).data) + 1 ≤ inp.n →
      ∃ e ctx r rest, (Chapter_blueprint_generate oracle inp).1
        = BEvent.chunkCall
            (maxList (extractChapterNumbers (pyStrip (inp.dirFile.getD "")).data) + 1)
            e ctx r :: rest)
    ∧ (inp.n < maxList (extractChapterNumbers (pyStrip (inp.dirFile.getD "")).data) + 1 →
      (Chapter_blueprint_generate oracle inp).1 = []) := by
  obtain ⟨af, df, n, mt⟩ := inp
  simp only at harch hdir ⊢
  subst harch
  simp only [Chapter_blueprint_generate]
  rw [if_neg hane, if_pos hdir]
  constructor
  · intro hle
    refine ⟨min (maxList (extractChapterNumbers (pyStrip (df.getD "")).data) + 1
        + compute_chunk_size n mt - 1) n,
      limit_chapter_blueprint (pyStrip (df.getD "")) 100, oracle 0, ?_⟩
    show ∃ rest, resumeLoop oracle n (compute_chunk_size n mt) (n + 1) _ _ 0 = _
    simp only [resumeLoop]
    rw [if_pos hle]
    split
    · exact ⟨_, rfl⟩
    · exact ⟨_, rfl⟩
  · intro hgt
    simp only [resumeLoop]
    rw [if_neg (by omega)]

/-- An outline holding markers for chapters 1 through 37. -/
def demoOutline : String :=
  "第1章 a\n第2章 a\n第3章 a\n第4章 a\n第5章 a\n第6章 a\n第7章 a\n第8章 a\n第9章 a\n第10章 a\n第11章 a\n第12章 a\n第13章 a\n第14章 a\n第15章 a\n第16章 a\n第17章 a\n第18章 a\n第19章 a\n第20章 a\n第21章 a\n第22章 a\n第23章 a\n第24章 a\n第25章 a\n第26章 a\n第27章 a\n第28章 a\n第29章 a\n第30章 a\n第31章 a\n第32章 a\n第33章 a\n第34章 a\n第35章 a\n第36章 a\n第37章 a"

set_option maxRecDepth 40000 in
/-- Witness for `blueprint_resume_start`: an outline with markers 1-37 out
of 100 chapters resumes with a first generation call starting at
chapter 38. -/
theorem blueprint_resume_start_witness :
    ∃ e ctx r rest, (Chapter_blueprint_generate (fun _ => "x")
        ⟨some "A", some demoOutline, 100, 4096⟩).1
      = BEvent.chunkCall 38 e ctx r :: rest := by
  have hm : maxList (extractChapterNumbers
      (pyStrip ((⟨some "A", some demoOutline, 100, 4096⟩ :
        BlueprintInput).dirFile.getD "")).data) = 37 := by decide
  have := (blueprint_resume_start (fun _ => "x")
    ⟨some "A", some demoOutline, 100, 4096⟩ "A" rfl (by decide) (by decide)).1
  rw [hm] at this
  exact this (by decide)

/-- Append rule of the generation loops: the first non-empty chunk becomes
the outline, later chunks are separated by a blank line (the resumed loop
always takes the second case since its accumulation starts non-empty). -/
def joinAcc (acc r : String) : String :=
  if pyStrip acc = "" then pyStrip r else acc ++ "\n\n" ++ pyStrip r

/-- The persistence discipline claimed for the chunked generation loops,
expressed on the event trace alone: every generation call is immediately
followed by a `persist`; a blank reply persists exactly the outline
accumulated so far and ends the trace; a non-empty reply persists the full
outline extended with that chunk before any further event.  `nil` covers a
loop that stops because the chapter range is exhausted. -/
inductive ChunkedTraceOk : String → List BEvent → Prop where
  | nil (acc : String) : ChunkedTraceOk acc []
  | halt (acc : String) (s e : Nat) (ctx r : String) (h : pyStrip r = "") :
      ChunkedTraceOk acc [BEvent.chunkCall s e ctx r, BEvent.persist acc]
  | step (acc : String) (s e : Nat) (ctx r : String) (rest : List BEvent)
      (h : pyStrip r ≠ "") (ih : ChunkedTraceOk (joinAcc acc r) rest) :
      ChunkedTraceOk acc
        (BEvent.chunkCall s e ctx r :: BEvent.persist (joinAcc acc r) :: rest)

theorem pyStrip_ne_empty_data {r : String} (h : pyStrip r ≠ "") :
    (pyStrip r).data ≠ [] :=
  fun h0 => h ((data_eq_nil_iff _).mp h0)

/-- The extended accumulation is already stripped when the previous one
was. -/
theorem joinAcc_stripped {acc r : String} (hacc : pyStrip acc = acc)
    (hr : pyStrip r ≠ "") :
    pyStrip (joinAcc acc r) = joinAcc acc r := by
  unfold joinAcc
  split
  · exact pyStrip_idem r
  · next hne =>
    rw [hacc] at hne
    exact pyStrip_eq_self_append "\n\n" hacc hne (pyStrip_idem r) hr

theorem append_ne_empty_left {a : String} (b : String) (ha : a ≠ "") :
    a ++ b ≠ "" := by
  intro h
  have hd := congrArg String.data h
  rw [String.data_append] at hd
  exact (fun h0 => ha ((data_eq_nil_iff a).mp h0)) (List.append_eq_nil.mp hd).1

/-- C4: both chunked generation loops of `Chapter_blueprint_generate`
(the resumed one and the from-scratch one) satisfy the persistence
discipline `ChunkedTraceOk`: a blank reply halts the loop at once and
persists exactly the outline accumulated so far, and every non-empty chunk
is appended and the full outline persisted before the next chunk's prompt
is built.  The resumed loop is started on the (already stripped, non-empty)
existing outline; the from-scratch loop on the empty string. -/
theorem chunk_loops_persist :
    (∀ (oracle : Nat → String) (n chunk fuel s i : Nat) (acc : String),
        pyStrip acc = acc → acc ≠ "" →
        ChunkedTraceOk acc (resumeLoop oracle n chunk fuel s acc i))
    ∧ (∀ (oracle : Nat → String) (n chunk fuel s i : Nat) (acc : String),
        pyStrip acc = acc →
        ChunkedTraceOk acc (scratchLoop oracle n chunk fuel s acc i)) := by
  constructor
  · intro oracle n chunk fuel
    induction fuel with
    | zero => intro s i acc _ _; exact ChunkedTraceOk.nil acc
    | succ f ih =>
      intro s i acc hacc hne
      simp only [resumeLoop]
      split
      · split
        · next hr =>
          rw [hacc]
          exact ChunkedTraceOk.halt _ _ _ _ _ hr
        · next hr =>
          have hj : joinAcc acc (oracle i) = acc ++ "\n\n" ++ pyStrip (oracle i) := by
            unfold joinAcc
            rw [hacc, if_neg hne]
          rw [show pyStrip (acc ++ "\n\n" ++ pyStrip (oracle i))
              = acc ++ "\n\n" ++ pyStrip (oracle i) from
            hj ▸ joinAcc_stripped hacc hr]
          rw [← hj]
          refine ChunkedTraceOk.step _ _ _ _ _ _ hr ?_
          refine ih _ _ _ (joinAcc_stripped hacc hr) ?_
          rw [hj]
          exact append_ne_empty_left _ (append_ne_empty_left _ hne)
      · exact ChunkedTraceOk.nil acc
  · intro oracle n chunk fuel
    induction fuel with
    | zero => intro s i acc _; exact ChunkedTraceOk.nil acc
    | succ f ih =>
      intro s i acc hacc
      simp only [scratchLoop]
      split
      · split
        · next hr =>
          rw [hacc]
          exact ChunkedTraceOk.halt _ _ _ _ _ hr
        · next hr =>
          have hj : joinAcc acc (oracle i)
              = (if pyStrip acc = "" then pyStrip (oracle i)
                 else acc ++ "\n\n" ++ pyStrip (oracle i)) := rfl
          rw [← hj, joinAcc_stripped hacc hr]
          exact ChunkedTraceOk.step _ _ _ _ _ _ hr
            (ih _ _ _ (joinAcc_stripped hacc hr))
      · exact ChunkedTraceOk.nil acc

/-- Witness for `chunk_loops_persist` at concrete inputs. -/
theorem chunk_loops_persist_witness :
    ChunkedTraceOk "X" (resumeLoop (fun _ => "r") 5 2 10 1 "X" 0)
    ∧ ChunkedTraceOk "" (scratchLoop (fun _ => "r") 5 2 10 1 "" 0) :=
  ⟨chunk_loops_persist.1 (fun _ => "r") 5 2 10 1 0 "X" (by decide) (by decide),
   chunk_loops_persist.2 (fun _ => "r") 5 2 10 1 0 "" (by decide)⟩

/- ------------------------------------------------------------------ -/
/- architecture.py : Novel_architecture_generate                       -/
/- ------------------------------------------------------------------ -/

/-- The Stage Progress Record persisted as `partial_architecture.json`:
one optional entry per stage key, as the Python dict holds them. -/
structure StageRecord where
  core_seed_result : Option String
  character_dynamics_result : Option String
  character_state_result : Option String
  world_building_result : Option String
  plot_arch_result : Option String
  deriving DecidableEq

/-- The empty record: a missing or unreadable progress file loads as `{}`. -/
def emptyRecord : StageRecord := ⟨none, none, none, none, none⟩

/-- Durable state consumed by `Novel_architecture_generate`: the progress
record file, `Novel_architecture.txt` and `character_state.txt`
(`none` = file absent). -/
structure ArchInit where
  recordFile : Option StageRecord
  archFile : Option String
  charStateFile : Option String

/-- Outcome of a run: number of generation calls issued and final durable
state. -/
structure ArchResult where
  calls : Nat
  recordFile : Option StageRecord
  archFile : Option String
  charStateFile : Option String
  deriving DecidableEq

/-- The `final_content` assembled at the end of the pipeline (fixed section
headers around the four stage results). -/
def composeArch (topic genre : String) (number_of_chapters word_number : Nat)
    (core dyn world plot : String) : String :=
  "#=== 0) 小说设定 ===\n"
    ++ "主题：" ++ topic ++ ",类型：" ++ genre ++ ",篇幅：约"
    ++ toString number_of_chapters ++ "章（每章" ++ toString word_number ++ "字）\n\n"
    ++ "#=== 1) 核心种子 ===\n" ++ core ++ "\n\n"
    ++ "#=== 2) 角色动力学 ===\n" ++ dyn ++ "\n\n"
    ++ "#=== 3) 世界观 ===\n" ++ world ++ "\n\n"
    ++ "#=== 4) 三幕式情节架构 ===\n" ++ plot ++ "\n"

/-- Final assembly: write `Novel_architecture.txt` and delete the progress
record (lines 248-278 of architecture.py). -/
def archFinish (topic genre : String) (n w : Nat) (cs : Option String)
    (calls : Nat) (pd : StageRecord) : ArchResult :=
  { calls := calls
    recordFile := none
    archFile := some (composeArch topic genre n w
      (pd.core_seed_result.getD "") (pd.character_dynamics_result.getD "")
      (pd.world_building_result.getD "") (pd.plot_arch_result.getD ""))
    charStateFile := cs }

/-- Step 4 (three-act plot architecture). -/
def archStep4 (oracle : Nat → String) (topic genre : String) (n w : Nat)
    (arch0 cs : Option String) (calls : Nat) (pd : StageRecord) : ArchResult :=
  match pd.plot_arch_result with
  | some _ => archFinish topic genre n w cs calls pd
  | none =>
    let r := oracle calls
    if pyStrip r = "" then
      { calls := calls + 1, recordFile := some pd, archFile := arch0, charStateFile := cs }
    else
      archFinish topic genre n w cs (calls + 1) { pd with plot_arch_result := some r }

/-- Step 3 (world building). -/
def archStep3 (oracle : Nat → String) (topic genre : String) (n w : Nat)
    (arch0 cs : Option String) (calls : Nat) (pd : StageRecord) : ArchResult :=
  match pd.world_building_result with
  | some _ => archStep4 oracle topic genre n w arch0 cs calls pd
  | none =>
    let r := oracle calls
    if pyStrip r = "" then
      { calls := calls + 1, recordFile := some pd, archFile := arch0, charStateFile := cs }
    else
      archStep4 oracle topic genre n w arch0 cs (calls + 1)
        { pd with world_building_result := some r }

/-- The character-state side stage: runs once character dynamics exists and
no character-state entry does; writes `character_state.txt` on success. -/
def archStepCS (oracle : Nat → String) (topic genre : String) (n w : Nat)
    (arch0 cs : Option String) (calls : Nat) (pd : StageRecord) : ArchResult :=
  if pd.character_dynamics_result.isSome ∧ pd.character_state_result = none then
    let r := oracle calls
    if pyStrip r = "" then
      { calls := calls + 1, recordFile := some pd, archFile := arch0, charStateFile := cs }
    else
      archStep3 oracle topic genre n w arch0 (some r) (calls + 1)
        { pd with character_state_result := some r }
  else
    archStep3 oracle topic genre n w arch0 cs calls pd

/-- Step 2 (character dynamics). -/
def archStep2 (oracle : Nat → String) (topic genre : String) (n w : Nat)
    (arch0 cs : Option String) (calls : Nat) (pd : StageRecord) : ArchResult :=
  match pd.character_dynamics_result with
  | some _ => archStepCS oracle topic genre n w arch0 cs calls pd
  | none =>
    let r := oracle calls
    if pyStrip r = "" then
      { calls := calls + 1, recordFile := some pd, archFile := arch0, charStateFile := cs }
    else
      archStepCS oracle topic genre n w arch0 cs (calls + 1)
        { pd with character_dynamics_result := some r }

/-- Embedding of `architecture.Novel_architecture_generate`: load the
progress record (absent or unreadable loads as empty), then run Step 1
(core seed), Step 2 (character dynamics), the character-state side stage,
Step 3 (world building), Step 4 (plot architecture); each blank reply saves
the record and stops; completion writes the final document and deletes the
record.  The content of `Novel_architecture.txt` is never consulted. -/
def Novel_architecture_generate (oracle : Nat → String) (topic genre : String)
    (n w : Nat) (init : ArchInit) : ArchResult :=
  let pd0 := init.recordFile.getD emptyRecord
  match pd0.core_seed_result with
  | some _ => archStep2 oracle topic genre n w init.archFile init.charStateFile 0 pd0
  | none =>
    let r := oracle 0
    if pyStrip r = "" then
      { calls := 1, recordFile := some pd0, archFile := init.archFile,
        charStateFile := init.charStateFile }
    else
      archStep2 oracle topic genre n w init.archFile init.charStateFile 1
        { pd0 with core_seed_result := some r }

/-- C1 counterexample: with `Novel_architecture.txt` present (content
`"OLD"`) and the Stage Progress Record file absent, invoking the Stage
Sequencer is not a no-op: it issues five generation calls and overwrites
the existing final document. -/
theorem arch_rerun_not_noop_cx :
    (Novel_architecture_generate (fun _ => "x") "t" "g" 3 100
        ⟨none, some "OLD", none⟩).calls = 5
    ∧ (Novel_architecture_generate (fun _ => "x") "t" "g" 3 100
        ⟨none, some "OLD", none⟩).archFile ≠ some "OLD" := by
  constructor
  · rfl
  · decide

/-- C1 as amended: when the Stage Progress Record is absent, the Stage
Sequencer re-runs every stage from the beginning, whatever the state of the
final document: with non-blank replies it issues exactly five generation
calls (one per stage including the character-state side stage), overwrites
the final document with the freshly composed content, writes the
character-state file, and deletes the record. -/
theorem arch_rerun_regenerates (oracle : Nat → String) (topic genre : String)
    (n w : Nat) (arch0 cs0 : Option String)
    (h : ∀ i, pyStrip (oracle i) ≠ "") :
    Novel_architecture_generate oracle topic genre n w ⟨none, arch0, cs0⟩
      = { calls := 5, recordFile := none,
          archFile := some (composeArch topic genre n w
            (oracle 0) (oracle 1) (oracle 3) (oracle 4)),
          charStateFile := some (oracle 2) } := by
  simp only [Novel_architecture_generate, archStep2, archStepCS, archStep3,
    archStep4, archFinish, Option.getD_none, emptyRecord]
  rw [if_neg (h 0)]
  try simp only []
  rw [if_neg (h 1)]
  try simp only []
  rw [if_pos (by simp)]
  rw [if_neg (h 2)]
  try simp only []
  rw [if_neg (h 3)]
  try simp only []
  rw [if_neg (h 4)]
  rfl

/-- Witness for `arch_rerun_regenerates` at a concrete input. -/
theorem arch_rerun_regenerates_witness :
    Novel_architecture_generate (fun _ => "x") "t" "g" 3 100
        ⟨none, some "OLD", none⟩
      = { calls := 5, recordFile := none,
          archFile := some (composeArch "t" "g" 3 100 "x" "x" "x" "x"),
          charStateFile := some "x" } :=
  arch_rerun_regenerates (fun _ => "x") "t" "g" 3 100 (some "OLD") none
    (fun _ => show pyStrip "x" ≠ "" by decide)

/- ------------------------------------------------------------------ -/
/- vectorstore_utils.py : retrieval                                    -/
/- ------------------------------------------------------------------ -/

/-- Python `"\n".join(docs)`. -/
def joinNl : List String → String
  | [] => ""
  | d :: ds =>
    match ds with
    | [] => d
    | _ :: _ => d ++ "\n" ++ joinNl ds

/-- Python slicing `s[:2000]` (by code points). -/
def truncate2000 (s : String) : String := ⟨s.data.take 2000⟩

/-- Embedding of `get_relevant_context_from_vector_store`.  The external
pieces are collapsed into the argument: `none` models a vector store that
is absent or failed to load, `some (.error ())` a similarity search that
raised, `some (.ok docs)` a search returning the page contents `docs`.
The body mirrors the source: empty string on absence, error or no match;
otherwise the texts joined with newlines, cut to 2000 characters when
longer. -/
def get_relevant_context_from_vector_store
    (search : Option (Except Unit (List String))) : String :=
  match search with
  | none => ""
  | some (Except.error _) => ""
  | some (Except.ok docs) =>
    if docs.isEmpty then ""
    else
      let combined := joinNl docs
      if combined.length > 2000 then truncate2000 combined else combined

/-- C5: the retrieval helper never returns more than 2000 characters; on a
successful search it returns the documents joined by newlines truncated to
2000 characters, and it returns the empty string when the store is absent
or fails to load, when the search raises, and when no document matches. -/
theorem retrieval_bound :
    (∀ search, (get_relevant_context_from_vector_store search).length ≤ 2000)
    ∧ (∀ docs, docs ≠ [] →
        get_relevant_context_from_vector_store (some (Except.ok docs))
          = truncate2000 (joinNl docs))
    ∧ get_relevant_context_from_vector_store none = ""
    ∧ (∀ e, get_relevant_context_from_vector_store (some (Except.error e)) = "")
    ∧ get_relevant_context_from_vector_store (some (Except.ok [])) = "" := by
  refine ⟨?_, ?_, rfl, fun e => rfl, rfl⟩
  · intro search
    match search with
    | none => simp [get_relevant_context_from_vector_store]
    | some (Except.error _) => simp [get_relevant_context_from_vector_store]
    | some (Except.ok docs) =>
      simp only [get_relevant_context_from_vector_store]
      split
      · simp
      · split
        · next hgt =>
          show (truncate2000 (joinNl docs)).length ≤ 2000
          show ((joinNl docs).data.take 2000).length ≤ 2000
          have := List.length_take 2000 (joinNl docs).data
          omega
        · next hle =>
          have h0 : (joinNl docs).length = (joinNl docs).data.length := rfl
          omega
  · intro docs hd
    simp only [get_relevant_context_from_vector_store,
      List.isEmpty_eq_true]
    rw [if_neg hd]
    split
    · rfl
    · next hle =>
      show joinNl docs = truncate2000 (joinNl docs)
      have hlen : (joinNl docs).data.length ≤ 2000 := by
        have h0 : (joinNl docs).length = (joinNl docs).data.length := rfl
        omega
      have htake : (joinNl docs).data.take 2000 = (joinNl docs).data :=
        List.take_of_length_le hlen
      unfold truncate2000
      rw [htake]

/-- Witness for `retrieval_bound` at a concrete search outcome. -/
theorem retrieval_bound_witness :
    get_relevant_context_from_vector_store (some (Except.ok ["a", "b"]))
      = truncate2000 (joinNl ["a", "b"]) :=
  retrieval_bound.2.1 ["a", "b"] (by decide)

/- ------------------------------------------------------------------ -/
/- vectorstore_utils.py / knowledge.py : text segmentation             -/
/- ------------------------------------------------------------------ -/

/-- Python `" ".join(sentences)`. -/
def joinSp : List String → String
  | [] => ""
  | d :: ds =>
    match ds with
    | [] => d
    | _ :: _ => d ++ " " ++ joinSp ds

/-- The shared accumulation loop of `split_text_for_vectorstore` and
`advanced_split_content`: fold sentences into groups, closing the current
group when adding the next sentence would push the accumulated sentence
length (`current_length`, which does not count the join separators) over
`maxLen`; the final non-empty group is always emitted.  Returns the groups;
the callers join each group with single spaces. -/
def splitLoop (maxLen : Nat) : List String → List String → Nat → List (List String)
  | [], cur, _ => if cur.isEmpty then [] else [cur]
  | s :: rest, cur, cl =>
    if cl + s.length > maxLen then
      (if cur.isEmpty then [] else [cur]) ++ splitLoop maxLen rest [s] s.length
    else
      splitLoop maxLen rest (cur ++ [s]) (cl + s.length)

/-- Embedding of `split_text_for_vectorstore` (the sentence tokenizer
`nltk.sent_tokenize` is the external parameter `tok`): blank input gives
no segments, an empty tokenization gives no segments, otherwise the
accumulation loop runs and each group is joined with spaces. -/
def split_text_for_vectorstore (tok : String → List String)
    (chapter_text : String) (max_length : Nat) : List String :=
  if pyStrip chapter_text = "" then []
  else
    let sentences := tok chapter_text
    if sentences.isEmpty then []
    else (splitLoop max_length sentences [] 0).map joinSp

/-- Embedding of `knowledge.advanced_split_content`: same accumulation
loop, but no blank-input guard (its caller checks that) and no fallback
when the tokenizer returns nothing. -/
def advanced_split_content (tok : String → List String)
    (content : String) (max_length : Nat) : List String :=
  let sentences := tok content
  if sentences.isEmpty then []
  else (splitLoop max_length sentences [] 0).map joinSp

/-- Structural worker for `split_by_length` (fuel bounds the recursion;
`split_by_length` passes the text length, enough whenever `maxLen ≥ 1`;
for `maxLen = 0` and non-empty text the Python loop does not terminate). -/
def sblAux (maxLen : Nat) : Nat → List Char → List String
  | _, [] => []
  | 0, _ :: _ => []
  | fuel + 1, l => (⟨stripList (l.take maxLen)⟩ : String) :: sblAux maxLen fuel (l.drop maxLen)

/-- Embedding of `vectorstore_utils.split_by_length`: fixed-width slices of
the text, each stripped. -/
def split_by_length (text : String) (maxLen : Nat) : List String :=
  sblAux maxLen text.data.length text.data

/-- C9 counterexample: a tokenizer that returns no sentences makes
`advanced_split_content` return no segments, while the plain
length-bounded segmentation of the same input is non-empty — the claimed
fallback to `split_by_length` does not happen. -/
theorem advanced_split_no_fallback_cx :
    advanced_split_content (fun _ => []) "abc" 500 = []
    ∧ split_by_length "abc" 500 = ["abc"]
    ∧ ([] : List String) ≠ ["abc"] := by
  refine ⟨rfl, ?_, by decide⟩
  decide

/-- C9 as amended: on the knowledge-ingestion path, when sentence splitting
yields no sentences, `advanced_split_content` returns the empty list — it
does not fall back to `split_by_length`. -/
theorem advanced_split_empty (tok : String → List String) (content : String)
    (maxLen : Nat) (h : tok content = []) :
    advanced_split_content tok content maxLen = [] := by
  simp [advanced_split_content, h]

/-- Witness for `advanced_split_empty`. -/
theorem advanced_split_empty_witness :
    advanced_split_content (fun _ => []) "xyz" 500 = [] :=
  advanced_split_empty (fun _ => []) "xyz" 500 rfl

/-- Total character count of a group of sentences (what `current_length`
tracks: join separators are not counted). -/
def sumLen (g : List String) : Nat := (g.map String.length).sum

theorem joinSp_length (g : List String) :
    (joinSp g).length = sumLen g + g.length - 1 := by
  induction g with
  | nil => rfl
  | cons a t ih =>
    cases t with
    | nil => simp [joinSp, sumLen]
    | cons b t' =>
      show (a ++ " " ++ joinSp (b :: t')).length = _
      rw [String.length_append, String.length_append]
      have hsp : (" " : String).length = 1 := rfl
      simp only [sumLen, List.map_cons, List.sum_cons, List.length_cons] at ih ⊢
      omega

theorem splitLoop_join (maxLen : Nat) :
    ∀ (ss cur : List String) (cl : Nat),
      (splitLoop maxLen ss cur cl).join = cur ++ ss := by
  intro ss
  induction ss with
  | nil => intro cur cl; cases cur <;> simp [splitLoop]
  | cons s rest ih =>
    intro cur cl
    simp only [splitLoop]
    split
    · have hrec := ih [s] s.length
      cases hc : cur.isEmpty with
      | true =>
        have hcur : cur = [] := List.isEmpty_eq_true.mp hc
        subst hcur
        simpa using hrec
      | false =>
        simp [hc, hrec]
    · rw [ih (cur ++ [s]) (cl + s.length)]
      simp

theorem splitLoop_group_ne (maxLen : Nat) :
    ∀ (ss cur : List String) (cl : Nat) (g : List String),
      g ∈ splitLoop maxLen ss cur cl → g ≠ [] := by
  intro ss
  induction ss with
  | nil =>
    intro cur cl g hg
    simp only [splitLoop] at hg
    split at hg
    · simp at hg
    · next hc =>
      rcases List.mem_singleton.mp hg with rfl
      exact fun h0 => hc (by rw [h0]; rfl)
  | cons s rest ih =>
    intro cur cl g hg
    simp only [splitLoop] at hg
    split at hg
    · rcases List.mem_append.mp hg with hg | hg
      · split at hg
        · simp at hg
        · next hc =>
          rcases List.mem_singleton.mp hg with rfl
          exact fun h0 => hc (by rw [h0]; rfl)
      · exact ih [s] s.length g hg
    · exact ih (cur ++ [s]) (cl + s.length) g hg

theorem splitLoop_sum (maxLen : Nat) :
    ∀ (ss cur : List String) (cl : Nat),
      cl = sumLen cur → (2 ≤ cur.length → sumLen cur ≤ maxLen) →
      ∀ g ∈ splitLoop maxLen ss cur cl, 2 ≤ g.length → sumLen g ≤ maxLen := by
  intro ss
  induction ss with
  | nil =>
    intro cur cl hcl hcur g hg
    simp only [splitLoop] at hg
    split at hg
    · simp at hg
    · rcases List.mem_singleton.mp hg with rfl
      exact hcur
  | cons s rest ih =>
    intro cur cl hcl hcur g hg
    simp only [splitLoop] at hg
    split at hg
    · rcases List.mem_append.mp hg with hg | hg
      · split at hg
        · simp at hg
        · rcases List.mem_singleton.mp hg with rfl
          exact hcur
      · exact ih [s] s.length (by simp [sumLen]) (by simp) g hg
    · next hov =>
      refine ih (cur ++ [s]) (cl + s.length) ?_ ?_ g hg
      · simp [sumLen, hcl]
      · intro _
        have : sumLen (cur ++ [s]) = cl + s.length := by simp [sumLen, hcl]
        omega

/-- Sentences of 250 characters each, used by the counterexample. -/
def s250a : String := ⟨List.replicate 250 'a'⟩

/-- A second 250-character sentence. -/
def s250b : String := ⟨List.replicate 250 'b'⟩

set_option maxRecDepth 100000 in
/-- C7 counterexample: two sentences of 250 characters are accumulated into
one segment (`current_length` reaches exactly 500, the cap), but the
emitted segment joins them with a space, so its character length is 501,
exceeding 500 although it contains more than one sentence. -/
theorem split_text_bound_cx :
    splitLoop 500 [s250a, s250b] [] 0 = [[s250a, s250b]]
    ∧ (split_text_for_vectorstore (fun _ => [s250a, s250b]) "x" 500).map
        String.length = [501]
    ∧ ¬ 501 ≤ 500 := by
  refine ⟨by decide, by decide, by decide⟩

/-- C7 as amended: `split_text_for_vectorstore` (with cap 500) returns the
groups of a partition of the tokenizer's sentence list, in order, each
group joined with single spaces — so sentences are never split internally
and the final partial segment is always emitted; blank input yields no
segments; segments are non-empty whenever the tokenizer's sentences are;
and every segment of more than one sentence has total sentence length
(separators excluded) at most 500, hence full length at most
`500 + (number of sentences − 1)`. -/
theorem split_text_spec :
    (∀ (tok : String → List String) (text : String),
      pyStrip text = "" → split_text_for_vectorstore tok text 500 = [])
    ∧ (∀ (tok : String → List String) (text : String), pyStrip text ≠ "" →
      ∃ groups : List (List String),
        groups.join = tok text
        ∧ split_text_for_vectorstore tok text 500 = groups.map joinSp
        ∧ (∀ g ∈ groups, g ≠ [])
        ∧ (∀ g ∈ groups, 2 ≤ g.length → sumLen g ≤ 500)
        ∧ (∀ g ∈ groups, 2 ≤ g.length → (joinSp g).length ≤ 500 + (g.length - 1))
        ∧ ((∀ s ∈ tok text, s ≠ "") → ∀ seg ∈ groups.map joinSp, seg ≠ "")) := by
  constructor
  · intro tok text h
    simp [split_text_for_vectorstore, h]
  · intro tok text h
    by_cases htok : (tok text).isEmpty
    · refine ⟨[], ?_, ?_, by simp, by simp, by simp, by simp⟩
      · simpa using (List.isEmpty_eq_true.mp htok).symm
      · simp [split_text_for_vectorstore, h, htok]
    · refine ⟨splitLoop 500 (tok text) [] 0, ?_, ?_, ?_, ?_, ?_, ?_⟩
      · simpa using splitLoop_join 500 (tok text) [] 0
      · simp [split_text_for_vectorstore, h, htok]
      · exact splitLoop_group_ne 500 (tok text) [] 0
      · exact splitLoop_sum 500 (tok text) [] 0 rfl (by simp)
      · intro g hg h2
        have hs := splitLoop_sum 500 (tok text) [] 0 rfl (by simp) g hg h2
        have := joinSp_length g
        omega
      · intro hsent seg hseg
        rcases List.mem_map.mp hseg with ⟨g, hg, rfl⟩
        have hgne := splitLoop_group_ne 500 (tok text) [] 0 g hg
        obtain ⟨s0, g', rfl⟩ : ∃ s0 g', g = s0 :: g' := by
          cases g with
          | nil => exact absurd rfl hgne
          | cons s0 g' => exact ⟨s0, g', rfl⟩
        have hs0 : s0 ∈ tok text := by
          have : s0 ∈ (splitLoop 500 (tok text) [] 0).join :=
            List.mem_join.mpr ⟨s0 :: g', hg, by simp⟩
          rw [splitLoop_join 500 (tok text) [] 0] at this
          simpa using this
        have hs0ne : s0 ≠ "" := hsent s0 hs0
        cases g' with
        | nil => exact hs0ne
        | cons b t => exact append_ne_empty_left _ (append_ne_empty_left _ hs0ne)

/-- Witness for `split_text_spec`: the blank-input part at a whitespace
text, and the partition part at a two-sentence tokenization. -/
theorem split_text_spec_witness :
    split_text_for_vectorstore (fun _ => ["ab"]) " " 500 = []
    ∧ ∃ groups : List (List String),
        groups.join = ["ab", "cd"]
        ∧ split_text_for_vectorstore (fun _ => ["ab", "cd"]) "x" 500
            = groups.map joinSp
        ∧ (∀ g ∈ groups, g ≠ [])
        ∧ (∀ g ∈ groups, 2 ≤ g.length → sumLen g ≤ 500)
        ∧ (∀ g ∈ groups, 2 ≤ g.length → (joinSp g).length ≤ 500 + (g.length - 1))
        ∧ ((∀ s ∈ ["ab", "cd"], s ≠ "") → ∀ seg ∈ groups.map joinSp, seg ≠ "") :=
  ⟨split_text_spec.1 (fun _ => ["ab"]) " " (by decide),
   split_text_spec.2 (fun _ => ["ab", "cd"]) "x" (by decide)⟩

/- ------------------------------------------------------------------ -/
/- finalization.py : finalize_chapter                                  -/
/- ------------------------------------------------------------------ -/

/-- Durable state touched by `finalize_chapter`: the chapter file,
`global_summary.txt`, `character_state.txt` and the documents stored in
the vector index (`none` = index absent). -/
structure FinState where
  chapterFile : Option String
  summaryFile : Option String
  stateFile : Option String
  vectorDocs : Option (List String)
  deriving DecidableEq

/-- Embedding of `vectorstore_utils.update_vector_store`: split the chapter
with `split_text_for_vectorstore`; nothing to insert is a no-op; otherwise
initialise the index with the segments when absent (`embedOk` stands for
the external embedding backend succeeding) or append them, failures being
swallowed. -/
def update_vector_store (tok : String → List String) (embedOk : Bool)
    (new_chapter : String) (docs : Option (List String)) : Option (List String) :=
  let splitted := split_text_for_vectorstore tok new_chapter 500
  if splitted.isEmpty then docs
  else
    match docs with
    | none => if embedOk then some splitted else none
    | some ds => if embedOk then some (ds ++ splitted) else some ds

/-- Embedding of `finalization.finalize_chapter`.  Returns the final state
and the number of generation calls issued.  Mirrors the source: a blank
chapter text returns at once; otherwise the summary and character-state
prompts are invoked (a blank reply keeps the old text), both files are
overwritten, and the chapter is pushed into the vector store. -/
def finalize_chapter (oracle : Nat → String) (tok : String → List String)
    (embedOk : Bool) (st : FinState) : FinState × Nat :=
  let chapter_text := pyStrip (st.chapterFile.getD "")
  if chapter_text = "" then (st, 0)
  else
    let old_global_summary := st.summaryFile.getD ""
    let old_character_state := st.stateFile.getD ""
    let r1 := oracle 0
    let new_global_summary := if pyStrip r1 = "" then old_global_summary else r1
    let r2 := oracle 1
    let new_char_state := if pyStrip r2 = "" then old_character_state else r2
    ({ chapterFile := st.chapterFile
       summaryFile := some new_global_summary
       stateFile := some new_char_state
       vectorDocs := update_vector_store tok embedOk chapter_text st.vectorDocs },
     2)

/-- C8: when the chapter text read for chapter `n` is empty or
whitespace-only, `finalize_chapter` returns immediately: the summary and
character-state files (and everything else) are byte-identical, no
generation call is issued, and nothing is appended to the vector index. -/
theorem finalize_empty_noop (oracle : Nat → String) (tok : String → List String)
    (embedOk : Bool) (st : FinState)
    (h : pyStrip (st.chapterFile.getD "") = "") :
    finalize_chapter oracle tok embedOk st = (st, 0) := by
  simp [finalize_chapter, h]

/-- Witness for `finalize_empty_noop`: a whitespace-only chapter file. -/
theorem finalize_empty_noop_witness :
    finalize_chapter (fun _ => "x") (fun s => [s]) true
        ⟨some " \n ", some "S", some "C", some ["d"]⟩
      = (⟨some " \n ", some "S", some "C", some ["d"]⟩, 0) :=
  finalize_empty_noop (fun _ => "x") (fun s => [s]) true
    ⟨some " \n ", some "S", some "C", some ["d"]⟩ (by decide)

/- ------------------------------------------------------------------ -/
/- blueprint.py : counting chapter entries (C6)                        -/
/- ------------------------------------------------------------------ -/

/-- The marker shape: `第`, spaces, at least one digit, spaces, `章`. -/
def MarkerShape (cs : List Char) : Prop :=
  ∃ ws1 ds ws2, cs = '第' :: (ws1 ++ ds ++ ws2 ++ ['章'])
    ∧ allSpace ws1 ∧ allDigit ds ∧ ds ≠ [] ∧ allSpace ws2

theorem matchMarker_shape {l : List Char} {v : Nat} {cs r : List Char}
    (h : matchMarker l = some (v, cs, r)) : MarkerShape cs := by
  obtain ⟨ws1, ds, ws2, hcs, h1, h2, h3, h4, _⟩ := matchMarker_inv h
  exact ⟨ws1, ds, ws2, hcs, h1, h2, h3, h4⟩

/-- A successful match only looks at the consumed prefix: extending the
input extends the rest and changes nothing else. -/
theorem matchMarker_ext {l : List Char} {v : Nat} {cs r : List Char}
    (h : matchMarker l = some (v, cs, r)) (k : List Char) :
    matchMarker (l ++ k) = some (v, cs, r ++ k) := by
  obtain ⟨ws1, ds, ws2, hcs, h1, h2, h3, h4, hv⟩ := matchMarker_inv h
  have happ := matchMarker_eq_append h
  subst happ
  have hre : (cs ++ r) ++ k = '第' :: (ws1 ++ (ds ++ (ws2 ++ ('章' :: (r ++ k))))) := by
    subst hcs
    simp [List.append_assoc]
  rw [hre, matchMarker_build _ h1 h2 h3 h4, ← hcs, hv]

theorem matchMarker_isSome_head {l : List Char}
    (h : (matchMarker l).isSome = true) : ∃ t, l = '第' :: t := by
  match l with
  | [] => simp [matchMarker] at h
  | c :: t =>
    refine ⟨t, ?_⟩
    by_contra hne
    rw [matchMarker_cons_ne t (fun h0 => hne (by rw [h0]))] at h
    simp at h

/-- A continuation is safe when, after leading whitespace, it is empty or
starts a fresh `第`.  The continuations that the entry scan actually
produces (end of input, or the next marker start) are safe, and so is the
`"\n\n"`-glued continuation inside the windowed join. -/
def SafeCont (k : List Char) : Prop :=
  ∀ c t, k.dropWhile isSpaceC = c :: t → c = '第'

theorem safeCont_nil : SafeCont [] := by
  intro c t h
  simp at h

theorem safeCont_di (t : List Char) : SafeCont ('第' :: t) := by
  intro c t' h
  rw [dropWhile_cons_neg _ (by decide)] at h
  exact (List.cons.injEq .. ▸ h).1.symm

theorem safeCont_space_append {g k : List Char} (hg : allSpace g)
    (hk : SafeCont k) : SafeCont (g ++ k) := by
  intro c t h
  rw [dropWhile_all_append _ hg] at h
  exact hk c t h

theorem safeCont_of_isSome {k : List Char}
    (h : (matchMarker k).isSome = true) : SafeCont k := by
  obtain ⟨t, rfl⟩ := matchMarker_isSome_head h
  exact safeCont_di t

theorem dropWhile_head_of_exists {p : Char → Bool} (d : List Char)
    (hex : ∃ x ∈ d, p x = false) :
    ∃ h t, d.dropWhile p = h :: t ∧ h ∈ d ∧ p h = false := by
  induction d with
  | nil => simp at hex
  | cons c t ih =>
    by_cases hc : p c = true
    · rw [List.dropWhile_cons, if_pos hc]
      obtain ⟨x, hx, hpx⟩ := hex
      rcases List.mem_cons.mp hx with rfl | hx'
      · rw [hc] at hpx; simp at hpx
      · obtain ⟨h, t', ht, hmem, hph⟩ := ih ⟨x, hx', hpx⟩
        exact ⟨h, t', ht, by simp [hmem], hph⟩
    · rw [List.dropWhile_cons, if_neg hc]
      exact ⟨c, t, rfl, by simp, Bool.not_eq_true _ ▸ hc⟩

/-- Characters that can appear strictly inside a marker never start one. -/
theorem marker_interior_ne_di {c : Char}
    (h : isSpaceC c = true ∨ c.isDigit = true ∨ c = '章') : c ≠ '第' := by
  rcases h with h | h | h
  · exact ne_di_of_isSpaceC h
  · exact ne_di_of_isDigit h
  · subst h; decide

/-- A suffix of marker-interior characters ending in `章` followed by
anything is never a safe continuation. -/
theorem not_safe_of_marker_tail {d r : List Char}
    (hzh : ∃ x ∈ d, isSpaceC x = false)
    (hclass : ∀ c ∈ d, isSpaceC c = true ∨ c.isDigit = true ∨ c = '章')
    (hsafe : SafeCont (d ++ r)) : False := by
  obtain ⟨h, t, ht, hmem, hph⟩ := dropWhile_head_of_exists d hzh
  have hne : d.dropWhile isSpaceC ≠ [] := by rw [ht]; simp
  have hdw : (d ++ r).dropWhile isSpaceC = d.dropWhile isSpaceC ++ r := by
    rw [List.dropWhile_append]
    rw [if_neg (by simpa using hne)]
  have := hsafe h (t ++ r) (by rw [hdw, ht]; rfl)
  exact marker_interior_ne_di (hclass h hmem) this

/-- Transfer of match failure between safe continuations: whether a marker
match starts inside `a` does not depend on which safe continuation follows
`a`. -/
theorem matchMarker_safe_mono {a k₁ k₂ : List Char} (ha : a ≠ [])
    (h₁ : SafeCont k₁) (h₂ : SafeCont k₂)
    (hs : (matchMarker (a ++ k₁)).isSome = true) :
    (matchMarker (a ++ k₂)).isSome = true := by
  obtain ⟨⟨v, cs, r⟩, hm⟩ := Option.isSome_iff_exists.mp hs
  have happ : a ++ k₁ = cs ++ r := matchMarker_eq_append hm
  obtain ⟨ws1, ds, ws2, hcs, hws1, hds, hdsne, hws2⟩ := matchMarker_shape hm
  by_cases hlen : cs.length ≤ a.length
  · -- the whole marker lies inside a
    have htake : a.take cs.length = cs := by
      have h0 := congrArg (List.take cs.length) happ
      rwa [List.take_append_of_le_length hlen, List.take_left] at h0
    have ha2 : a = cs ++ a.drop cs.length := by
      conv_lhs => rw [← List.take_append_drop cs.length a]
      rw [htake]
    have hbuild : cs ++ (a.drop cs.length ++ k₂)
        = '第' :: (ws1 ++ (ds ++ (ws2 ++ ('章' :: (a.drop cs.length ++ k₂))))) := by
      subst hcs
      simp [List.append_assoc]
    rw [ha2, List.append_assoc, hbuild, matchMarker_build _ hws1 hds hdsne hws2]
    rfl
  · -- the marker spills into k₁: impossible for a safe continuation
    exfalso
    push_neg at hlen
    have hk₁ : k₁ = cs.drop a.length ++ r := by
      have h0 := congrArg (List.drop a.length) happ
      rwa [List.drop_left, List.drop_append_of_le_length (le_of_lt hlen)] at h0
    have ha1 : 1 ≤ a.length := by
      cases a with
      | nil => exact absurd rfl ha
      | cons _ _ => simp
    have hcslen : cs.length = ws1.length + ds.length + ws2.length + 2 := by
      rw [hcs]
      simp [List.length_append]
      omega
    have hmidlen : a.length - 1 ≤ (ws1 ++ ds ++ ws2).length := by
      simp only [List.length_append]
      omega
    have hd : cs.drop a.length = (ws1 ++ ds ++ ws2).drop (a.length - 1) ++ ['章'] := by
      rw [hcs, show ws1 ++ ds ++ ws2 ++ ['章'] = (ws1 ++ ds ++ ws2) ++ ['章'] from rfl]
      rw [show a.length = (a.length - 1) + 1 by omega]
      rw [List.drop_succ_cons]
      exact List.drop_append_of_le_length hmidlen
    have hclass : ∀ c ∈ cs.drop a.length,
        isSpaceC c = true ∨ c.isDigit = true ∨ c = '章' := by
      intro c hc
      rw [hd] at hc
      rcases List.mem_append.mp hc with hc | hc
      · have : c ∈ ws1 ++ ds ++ ws2 := List.drop_subset _ _ hc
        rcases List.mem_append.mp this with h0 | h0
        · rcases List.mem_append.mp h0 with h0 | h0
          · exact Or.inl (hws1 c h0)
          · exact Or.inr (Or.inl (hds c h0))
        · exact Or.inl (hws2 c h0)
      · exact Or.inr (Or.inr (List.mem_singleton.mp hc))
    have hzh : ∃ x ∈ cs.drop a.length, isSpaceC x = false := by
      refine ⟨'章', ?_, by decide⟩
      rw [hd]
      simp
    rw [hk₁] at h₁
    exact not_safe_of_marker_tail hzh hclass h₁

/-- Entry content: no marker match starts at any of its positions, for any
safe continuation. -/
def ContentOk (ct : List Char) : Prop :=
  ∀ j, j < ct.length → ∀ K, SafeCont K → matchMarker (ct.drop j ++ K) = none

/-- Well-formed chapter entry: a marker followed by marker-free content. -/
def EntryOk (e : List Char) : Prop :=
  ∃ cs ct, e = cs ++ ct ∧ MarkerShape cs ∧ ContentOk ct

theorem entryOk_head {e : List Char} (he : EntryOk e) : ∃ t, e = '第' :: t := by
  obtain ⟨cs, ct, rfl, ⟨ws1, ds, ws2, hcs, _⟩, _⟩ := he
  subst hcs
  exact ⟨_, rfl⟩

theorem findEntries_entryOk_bounded :
    ∀ n : Nat, ∀ l : List Char, l.length ≤ n → ∀ e ∈ findEntries l, EntryOk e := by
  intro n
  induction n with
  | zero =>
    intro l hl e he
    have : l = [] := List.length_eq_zero.mp (Nat.le_zero.mp hl)
    subst this
    simp [findEntries, findEntriesAux] at he
  | succ n ih =>
    intro l hl e he
    match l with
    | [] => simp [findEntries, findEntriesAux] at he
    | c :: rest =>
      rw [findEntries_cons] at he
      cases h : matchMarker (c :: rest) with
      | none =>
        rw [h] at he
        exact ih rest (by simp at hl; omega) e he
      | some x =>
        rw [h] at he
        simp only at he
        obtain ⟨v, cs, rem⟩ := x
        rcases List.mem_cons.mp he with rfl | he'
        · refine ⟨cs, (takeUntilMarker rem).1, rfl, matchMarker_shape h, ?_⟩
          intro j hj K hK
          have hfail := takeUntilMarker_fail rem j hj
          have hsafe : SafeCont (takeUntilMarker rem).2 := by
            rcases takeUntilMarker_stop rem with h0 | h0
            · rw [h0]; exact safeCont_nil
            · exact safeCont_of_isSome h0
          have hane : (takeUntilMarker rem).1.drop j ≠ [] := by
            intro h0
            rw [List.drop_eq_nil_iff_le] at h0
            omega
          cases hres : matchMarker ((takeUntilMarker rem).1.drop j ++ K) with
          | none => rfl
          | some y =>
            have : (matchMarker ((takeUntilMarker rem).1.drop j
                ++ (takeUntilMarker rem).2)).isSome = true :=
              matchMarker_safe_mono hane hK hsafe (by rw [hres]; rfl)
            rw [hfail] at this
            simp at this
        · have hlt := matchMarker_rest_lt h
          have htl := takeUntilMarker_length rem
          refine ih (takeUntilMarker rem).2 ?_ e he'
          simp only [List.length_cons] at hl hlt
          omega

/-- Every entry returned by the scan is well formed. -/
theorem findEntries_entryOk :
    ∀ l : List Char, ∀ e ∈ findEntries l, EntryOk e :=
  fun l => findEntries_entryOk_bounded l.length l (le_refl _)

/-- Number of positions strictly inside `x` at which a marker match starts
when `x` is followed by `r`. -/
def numMarkersPre (r : List Char) : List Char → Nat
  | [] => 0
  | c :: t => (if (matchMarker (c :: (t ++ r))).isSome then 1 else 0) + numMarkersPre r t

theorem numMarkers_append (x r : List Char) :
    numMarkers (x ++ r) = numMarkersPre r x + numMarkers r := by
  induction x with
  | nil => simp [numMarkersPre]
  | cons c t ih =>
    show numMarkers (c :: (t ++ r)) = _
    rw [numMarkers, ih, numMarkersPre]
    omega

theorem numMarkersPre_split (r x y : List Char) :
    numMarkersPre r (x ++ y) = numMarkersPre (y ++ r) x + numMarkersPre r y := by
  induction x with
  | nil => simp [numMarkersPre]
  | cons c t ih =>
    show numMarkersPre r (c :: (t ++ y)) = _
    rw [numMarkersPre, numMarkersPre, ih]
    rw [show (t ++ y) ++ r = t ++ (y ++ r) from List.append_assoc ..]
    omega

theorem numMarkersPre_zero_of_ne (r m : List Char) (hm : ∀ c ∈ m, c ≠ '第') :
    numMarkersPre r m = 0 := by
  induction m with
  | nil => rfl
  | cons c t ih =>
    rw [numMarkersPre, matchMarker_cons_ne _ (hm c (by simp))]
    simp only [Option.isSome_none, Bool.false_eq_true, if_false, Nat.zero_add]
    exact ih fun c hc => hm c (by simp [hc])

theorem contentOk_pre (ct : List Char) (r : List Char) (hct : ContentOk ct)
    (hr : SafeCont r) : numMarkersPre r ct = 0 := by
  induction ct with
  | nil => rfl
  | cons c t ih =>
    rw [numMarkersPre]
    have h0 : matchMarker (c :: (t ++ r)) = none := by
      have := hct 0 (by simp) r hr
      simpa using this
    rw [h0]
    simp only [Option.isSome_none, Bool.false_eq_true, if_false, Nat.zero_add]
    exact ih fun j hj K hK => hct (j + 1) (by simp; omega) K hK

theorem entryOk_pre_le {e : List Char} (he : EntryOk e) (r : List Char)
    (hr : SafeCont r) : numMarkersPre r e ≤ 1 := by
  obtain ⟨cs, ct, rfl, ⟨ws1, ds, ws2, hcs, hws1, hds, _, hws2⟩, hct⟩ := he
  rw [numMarkersPre_split]
  have hctz : numMarkersPre r ct = 0 := contentOk_pre ct r hct hr
  have hcsb : numMarkersPre (ct ++ r) cs ≤ 1 := by
    rw [hcs]
    rw [numMarkersPre]
    have htail : numMarkersPre (ct ++ r) (ws1 ++ ds ++ ws2 ++ ['章']) = 0 := by
      refine numMarkersPre_zero_of_ne _ _ ?_
      intro c hc
      rcases List.mem_append.mp hc with h0 | h0
      · rcases List.mem_append.mp h0 with h0 | h0
        · rcases List.mem_append.mp h0 with h0 | h0
          · exact ne_di_of_isSpaceC (hws1 c h0)
          · exact ne_di_of_isDigit (hds c h0)
        · exact ne_di_of_isSpaceC (hws2 c h0)
      · rw [List.mem_singleton.mp h0]; decide
    rw [htail]
    split <;> omega
  omega

theorem allSpace_nl2 : allSpace nl2 := by
  intro c hc
  rcases List.mem_cons.mp hc with rfl | hc
  · rfl
  · rcases List.mem_singleton.mp hc with rfl; rfl

theorem safeCont_intercalate (es : List (List Char)) (hes : ∀ e ∈ es, EntryOk e) :
    SafeCont (intercalateL nl2 es) := by
  cases es with
  | nil => exact safeCont_nil
  | cons e es' =>
    obtain ⟨t, ht⟩ := entryOk_head (hes e (by simp))
    cases es' with
    | nil =>
      rw [show intercalateL nl2 [e] = e from rfl, ht]
      exact safeCont_di t
    | cons f fs =>
      rw [show intercalateL nl2 (e :: f :: fs)
          = e ++ nl2 ++ intercalateL nl2 (f :: fs) from rfl, ht]
      rw [List.cons_append, List.cons_append]
      exact safeCont_di _

theorem intercalate_count (es : List (List Char)) (hes : ∀ e ∈ es, EntryOk e) :
    numMarkers (intercalateL nl2 es) ≤ es.length := by
  induction es with
  | nil => exact Nat.le_refl 0
  | cons e es' ih =>
    cases es' with
    | nil =>
      rw [show intercalateL nl2 [e] = e from rfl]
      have h1 := entryOk_pre_le (hes e (by simp)) [] safeCont_nil
      have h2 := numMarkers_append e []
      rw [List.append_nil] at h2
      simp only [numMarkers] at h2
      simp only [List.length_cons, List.length_nil]
      omega
    | cons f fs =>
      have hrest : ∀ e' ∈ f :: fs, EntryOk e' := fun e' he' => hes e' (by simp [he'])
      rw [show intercalateL nl2 (e :: f :: fs)
          = (e ++ nl2) ++ intercalateL nl2 (f :: fs) from rfl]
      rw [numMarkers_append]
      have hrec := ih hrest
      have hsafe : SafeCont (nl2 ++ intercalateL nl2 (f :: fs)) :=
        safeCont_space_append allSpace_nl2 (safeCont_intercalate _ hrest)
      have hpre : numMarkersPre (intercalateL nl2 (f :: fs)) (e ++ nl2) ≤ 1 := by
        rw [numMarkersPre_split]
        have h1 := entryOk_pre_le (hes e (by simp)) _ hsafe
        have h2 : numMarkersPre (intercalateL nl2 (f :: fs)) nl2 = 0 := by
          refine numMarkersPre_zero_of_ne _ _ ?_
          intro c hc
          exact ne_di_of_isSpaceC (allSpace_nl2 c hc)
        omega
      simp only [List.length_cons] at hrec ⊢
      omega

theorem numMarkers_le_append_right (z w : List Char) :
    numMarkers z ≤ numMarkers (z ++ w) := by
  induction z with
  | nil => exact Nat.zero_le _
  | cons c t ih =>
    show numMarkers (c :: t) ≤ numMarkers (c :: (t ++ w))
    rw [numMarkers, numMarkers]
    have hflag : (if (matchMarker (c :: t)).isSome then 1 else 0)
        ≤ (if (matchMarker (c :: (t ++ w))).isSome then (1 : Nat) else 0) := by
      cases h : matchMarker (c :: t) with
      | none => simp
      | some x =>
        obtain ⟨v, cs, r⟩ := x
        have hext := matchMarker_ext h w
        rw [show (c :: t) ++ w = c :: (t ++ w) from rfl] at hext
        rw [hext]
        simp
    omega

theorem numMarkers_suffix_le (a b : List Char) :
    numMarkers b ≤ numMarkers (a ++ b) := by
  rw [numMarkers_append]
  omega

theorem numMarkers_stripList_le (l : List Char) :
    numMarkers (stripList l) ≤ numMarkers l := by
  unfold stripList
  have h1 : numMarkers (l.dropWhile isSpaceC) ≤ numMarkers l := by
    conv_rhs => rw [← List.takeWhile_append_dropWhile isSpaceC l]
    exact numMarkers_suffix_le _ _
  have h2 : ((l.dropWhile isSpaceC).reverse.dropWhile isSpaceC).reverse
      ++ ((l.dropWhile isSpaceC).reverse.takeWhile isSpaceC).reverse
      = l.dropWhile isSpaceC := by
    rw [← List.reverse_append, List.takeWhile_append_dropWhile, List.reverse_reverse]
  calc numMarkers ((l.dropWhile isSpaceC).reverse.dropWhile isSpaceC).reverse
      ≤ numMarkers (((l.dropWhile isSpaceC).reverse.dropWhile isSpaceC).reverse
          ++ ((l.dropWhile isSpaceC).reverse.takeWhile isSpaceC).reverse) :=
        numMarkers_le_append_right _ _
    _ = numMarkers (l.dropWhile isSpaceC) := by rw [h2]
    _ ≤ numMarkers l := h1

theorem numMarkers_tum (l : List Char) :
    numMarkers (takeUntilMarker l).2 = numMarkers l := by
  induction l with
  | nil => rfl
  | cons c rest ih =>
    simp only [takeUntilMarker]
    split
    · rfl
    · next h =>
      show numMarkers (takeUntilMarker rest).2 = numMarkers (c :: rest)
      rw [numMarkers, if_neg h, ih]
      omega

theorem findEntries_length_bounded :
    ∀ n : Nat, ∀ l : List Char, l.length ≤ n →
      (findEntries l).length = numMarkers l := by
  intro n
  induction n with
  | zero =>
    intro l hl
    have : l = [] := List.length_eq_zero.mp (Nat.le_zero.mp hl)
    subst this
    rfl
  | succ n ih =>
    intro l hl
    match l with
    | [] => rfl
    | c :: rest =>
      rw [findEntries_cons]
      cases h : matchMarker (c :: rest) with
      | none =>
        simp only
        rw [ih rest (by simp at hl; omega)]
        rw [numMarkers, if_neg (by rw [h]; simp)]
        omega
      | some x =>
        simp only
        obtain ⟨v, cs, rem⟩ := x
        simp only [List.length_cons]
        have hlt := matchMarker_rest_lt h
        have htl := takeUntilMarker_length rem
        simp only [List.length_cons] at hlt hl
        rw [ih (takeUntilMarker rem).2 (by omega)]
        rw [numMarkers_tum rem]
        obtain ⟨ws1, ds, ws2, hcs, hws1, hds, _, hws2⟩ := matchMarker_shape h
        have happ := matchMarker_eq_append h
        rw [hcs] at happ
        rw [List.cons_append] at happ
        have hrest : rest = (ws1 ++ ds ++ ws2 ++ ['章']) ++ rem :=
          (List.cons.injEq .. ▸ happ).2
        have hglue : numMarkers rest = numMarkers rem := by
          rw [hrest, numMarkers_append]
          have : numMarkersPre rem (ws1 ++ ds ++ ws2 ++ ['章']) = 0 := by
            refine numMarkersPre_zero_of_ne _ _ ?_
            intro ch hch
            rcases List.mem_append.mp hch with h0 | h0
            · rcases List.mem_append.mp h0 with h0 | h0
              · rcases List.mem_append.mp h0 with h0 | h0
                · exact ne_di_of_isSpaceC (hws1 ch h0)
                · exact ne_di_of_isDigit (hds ch h0)
              · exact ne_di_of_isSpaceC (hws2 ch h0)
            · rw [List.mem_singleton.mp h0]; decide
          omega
        rw [← hglue, numMarkers, if_pos (by rw [h]; rfl)]
        omega

theorem findEntries_length_eq (l : List Char) :
    (findEntries l).length = numMarkers l :=
  findEntries_length_bounded l.length l (le_refl _)

/-- Core bound behind C6: any output of `limit_chapter_blueprint` with
limit 100 holds at most 100 chapter entries. -/
theorem limit_window_le (s : String) :
    (findEntries (limit_chapter_blueprint s 100).data).length ≤ 100 := by
  simp only [limit_chapter_blueprint]
  split
  · next hemp =>
    rw [List.isEmpty_iff] at hemp
    rw [hemp]
    simp
  · split
    · next hle => exact hle
    · next hgt =>
      show (findEntries (stripList (intercalateL nl2
        ((findEntries s.data).drop ((findEntries s.data).length - 100))))).length ≤ 100
      rw [findEntries_length_eq]
      push_neg at hgt
      calc numMarkers (stripList (intercalateL nl2
            ((findEntries s.data).drop ((findEntries s.data).length - 100))))
          ≤ numMarkers (intercalateL nl2
            ((findEntries s.data).drop ((findEntries s.data).length - 100))) :=
            numMarkers_stripList_le _
        _ ≤ ((findEntries s.data).drop ((findEntries s.data).length - 100)).length :=
            intercalate_count _ (fun e he =>
              findEntries_entryOk s.data e (List.drop_subset _ _ he))
        _ ≤ 100 := by
            rw [List.length_drop]
            omega

/-- C6: for every outline text, the trailing-context window computed by
`limit_chapter_blueprint` with limit 100 contains at most 100 chapter
entries, however many entries the full outline holds; in particular the
`ctx` ingredient of every chunk prompt issued by either generation loop
obeys that cap. -/
theorem limit_blueprint_window_cap :
    (∀ s : String, (findEntries (limit_chapter_blueprint s 100).data).length ≤ 100)
    ∧ (∀ (oracle : Nat → String) (n chunk fuel s i : Nat) (acc : String)
        (s' e' : Nat) (ctx r : String),
        BEvent.chunkCall s' e' ctx r ∈ resumeLoop oracle n chunk fuel s acc i →
        (findEntries ctx.data).length ≤ 100)
    ∧ (∀ (oracle : Nat → String) (n chunk fuel s i : Nat) (acc : String)
        (s' e' : Nat) (ctx r : String),
        BEvent.chunkCall s' e' ctx r ∈ scratchLoop oracle n chunk fuel s acc i →
        (findEntries ctx.data).length ≤ 100) := by
  refine ⟨limit_window_le, ?_, ?_⟩
  · intro oracle n chunk fuel
    induction fuel with
    | zero => intro s i acc s' e' ctx r h; simp [resumeLoop] at h
    | succ f ih =>
      intro s i acc s' e' ctx r h
      simp only [resumeLoop] at h
      split at h
      · split at h
        · rcases List.mem_cons.mp h with heq | h'
          · obtain ⟨-, -, hctx, -⟩ := BEvent.chunkCall.inj heq
            rw [hctx]
            exact limit_window_le acc
          · rcases List.mem_singleton.mp h' with heq
            exact absurd heq (by simp)
        · rcases List.mem_cons.mp h with heq | h'
          · obtain ⟨-, -, hctx, -⟩ := BEvent.chunkCall.inj heq
            rw [hctx]
            exact limit_window_le acc
          · rcases List.mem_cons.mp h' with heq | h''
            · exact absurd heq (by simp)
            · exact ih _ _ _ s' e' ctx r h''
      · simp at h
  · intro oracle n chunk fuel
    induction fuel with
    | zero => intro s i acc s' e' ctx r h; simp [scratchLoop] at h
    | succ f ih =>
      intro s i acc s' e' ctx r h
      simp only [scratchLoop] at h
      split at h
      · split at h
        · rcases List.mem_cons.mp h with heq | h'
          · obtain ⟨-, -, hctx, -⟩ := BEvent.chunkCall.inj heq
            rw [hctx]
            exact limit_window_le acc
          · rcases List.mem_singleton.mp h' with heq
            exact absurd heq (by simp)
        · rcases List.mem_cons.mp h with heq | h'
          · obtain ⟨-, -, hctx, -⟩ := BEvent.chunkCall.inj heq
            rw [hctx]
            exact limit_window_le acc
          · rcases List.mem_cons.mp h' with heq | h''
            · exact absurd heq (by simp)
            · exact ih _ _ _ s' e' ctx r h''
      · simp at h

/-- Witness for `limit_blueprint_window_cap`: the first chunk call of a
concrete resumed run. -/
theorem limit_blueprint_window_cap_witness :
    (findEntries (limit_chapter_blueprint "第1章 x" 100).data).length ≤ 100 :=
  limit_blueprint_window_cap.2.1 (fun _ => "") 5 2 6 2 0 "第1章 x" 2 3
    (limit_chapter_blueprint "第1章 x" 100) ""
    (by decide)
